import Mathlib

/-!
Verification of the MPM fracture crack-crossing visualizer core.

The embedding below translates the core algorithm of the repository
(`utils.ts`: `triangleArea`, `checkCrossing`, `generateSimulationSteps`,
`presets`, together with the record types of `types.ts`) into Lean.

Coordinates are modelled over an arbitrary linear ordered commutative ring:
the source computes only with `+`, `-`, `*`, squaring and order comparisons,
so every theorem below holds in particular for rational and real
coordinates.  Concrete evaluations instantiate the ring at integers, which
is exact for every concrete input used (the relevant preset has integral
coordinates).

The step descriptions of the source are human-readable strings built from a
fixed set of templates, one per push site; here each template is one
constructor of `StepDesc`, carrying the values interpolated into the string.
The accumulator, a record keyed by node-particle strings in the source, is
an association list keyed by the (node id, particle id) pair, in insertion
order, which is the iteration order of string-keyed records.  Each push
site of the source builds one step record inline; those records are the
step-builder definitions (`initStep`, `checkingStep`, ...) below.
-/

namespace MFV

/-- A pair of coordinates, `types.ts` interface Point. -/
structure Point (α : Type) where
  x : α
  y : α
deriving DecidableEq, Repr

/-- A point with a stable integer identity, `types.ts` interface Node. -/
structure Node (α : Type) where
  id : Nat
  x : α
  y : α
deriving DecidableEq, Repr

/-- The coordinates of a node (the source accesses them directly since
Node extends Point). -/
def Node.pos {α : Type} (n : Node α) : Point α := ⟨n.x, n.y⟩

/-- A point with a stable integer identity, `types.ts` interface Particle. -/
structure Particle (α : Type) where
  id : Nat
  x : α
  y : α
deriving DecidableEq, Repr

/-- The coordinates of a particle. -/
def Particle.pos {α : Type} (p : Particle α) : Point α := ⟨p.x, p.y⟩

/-- An ordered polyline, `types.ts` interface Crack. -/
structure Crack (α : Type) where
  id : Nat
  points : List (Point α)
deriving DecidableEq, Repr

variable {α : Type} [LinearOrderedCommRing α]

/-- Signed twice-area of a triangle, `utils.ts` triangleArea. -/
def triangleArea (x1 x2 x3 : Point α) : α :=
  x1.x * (x2.y - x3.y) + x2.x * (x3.y - x1.y) + x3.x * (x1.y - x2.y)

/-- Squared Euclidean distance, `utils.ts` distSq. -/
def distSq (p1 p2 : Point α) : α := (p1.x - p2.x) ^ 2 + (p1.y - p2.y) ^ 2

/-- The four signed areas computed by checkCrossing. -/
structure Areas (α : Type) where
  area1 : α
  area2 : α
  area3 : α
  area4 : α
deriving DecidableEq, Repr

/-- Return value of checkCrossing: the classification code and the raw areas. -/
structure CrossResult (α : Type) where
  result : Nat
  areas : Areas α
deriving DecidableEq, Repr

/-- `utils.ts` checkCrossing: the four-area crossing classifier.  Pattern
[-,+,+,-] gives 2 (crossed above), pattern [+,-,-,+] gives 3 (crossed
below), anything else 0. -/
def checkCrossing (p n cStart cEnd : Point α) : CrossResult α :=
  let area1 := triangleArea p n cStart
  let area2 := triangleArea p n cEnd
  let area3 := triangleArea cStart cEnd p
  let area4 := triangleArea cStart cEnd n
  let result : Nat :=
    if area1 < 0 ∧ area2 ≥ 0 ∧ area3 ≥ 0 ∧ area4 < 0 then 2
    else if area1 ≥ 0 ∧ area2 < 0 ∧ area3 < 0 ∧ area4 ≥ 0 then 3
    else 0
  ⟨result, ⟨area1, area2, area3, area4⟩⟩

/-- One constructor per description template the source interpolates into
SimulationStep.description, carrying the interpolated values. -/
inductive StepDesc where
  | initialization
  | processingCrack (crackId : Nat)
  | checking (nodeId particleId segIdx : Nat)
  | resultPair (nodeId particleId finalField : Nat)
  | consistencyPhase (crackId : Nat)
  | seesFields (nodeId : Nat) (fields : List Nat)
  | warning (nodeId : Nat)
  | normalizing (nodeId remapFrom remapTo : Nat)
  | complete
deriving DecidableEq, Repr

/-- Composite accumulator key: the source keys its record by the string
"nodeId-particleId"; for integer ids that string is in bijection with the
(node id, particle id) pair used here. -/
abbrev PairKey := Nat × Nat

/-- The field accumulator: one entry per connected (node, particle) pair in
insertion order, holding one label per crack. -/
abbrev FieldAcc := List (PairKey × List Nat)

/-- `types.ts` SimulationStep.  `segmentCounts` is the (f2, f3) pair,
`normalizationAction` the (from, to) pair of the remap, and
`currentFieldState` the combined base-3 snapshot keyed like the
accumulator. -/
structure Step (α : Type) where
  stepId : Nat
  description : StepDesc
  highlightNodeId : Option Nat := none
  highlightParticleId : Option Nat := none
  highlightCrackId : Option Nat := none
  highlightSegmentIndex : Option Nat := none
  triangleA : Option (List (Point α)) := none
  triangleB : Option (List (Point α)) := none
  triangleC : Option (List (Point α)) := none
  triangleD : Option (List (Point α)) := none
  areas : Option (Areas α) := none
  crossingResult : Option Nat := none
  segmentCounts : Option (Nat × Nat) := none
  consistencyNodeId : Option Nat := none
  consistencyFields : Option (List Nat) := none
  normalizationAction : Option (Nat × Nat) := none
  currentFieldState : List (PairKey × Nat) := []
deriving DecidableEq, Repr

/-- Record lookup fieldAccumulator[key]; the empty list stands for an
absent key. -/
def lookupAcc (acc : FieldAcc) (k : PairKey) : List Nat :=
  match acc.find? (fun e => decide (e.1 = k)) with
  | some e => e.2
  | none => []

/-- Assignment fieldAccumulator[key][idx] = v. -/
def setSlot (acc : FieldAcc) (k : PairKey) (idx v : Nat) : FieldAcc :=
  acc.map (fun e => if e.1 = k then (e.1, e.2.set idx v) else e)

/-- The read fieldAccumulator[key][crackIdx]; 0 stands for the absent
(undefined) value. -/
def slotOf (acc : FieldAcc) (crackIdx : Nat) (k : PairKey) : Nat :=
  (lookupAcc acc k).getD crackIdx 0

/-- The keys of the accumulator, in insertion order. -/
def keysOf (acc : FieldAcc) : List PairKey := acc.map (fun e => e.1)

/-- Positional base-3 packing of the per-crack labels of one pair,
the inner loop of computeCombinedField. -/
def combineLabels (labels : List Nat) : Nat :=
  labels.enum.foldl (fun val p => val + p.2 * 3 ^ p.1) 0

/-- `utils.ts` computeCombinedField. -/
def computeCombinedField (acc : FieldAcc) : List (PairKey × Nat) :=
  acc.map (fun e => (e.1, combineLabels e.2))

/-- Ordered insertion used by the stable sort below. -/
def insertLe {β : Type} (le : β → β → Bool) (x : β) : List β → List β
  | [] => [x]
  | y :: ys => if le x y then x :: y :: ys else y :: insertLe le x ys

/-- Stable insertion sort, modelling JavaScript Array.prototype.sort
(specified stable) with a comparator. -/
def sortByLe {β : Type} (le : β → β → Bool) : List β → List β
  | [] => []
  | x :: xs => insertLe le x (sortByLe le xs)

/-- The node ranking of the connectivity builder: all nodes sorted by
squared distance to the particle, ascending, ties kept in input order. -/
def sortNodesByDist (p : Particle α) (nodes : List (Node α)) : List (Node α) :=
  sortByLe (fun a b => decide (distSq p.pos a.pos ≤ distSq p.pos b.pos)) nodes

/-- particleToNodes[p.id]: ids of the 4 closest nodes (all of them when
fewer than 4 exist). -/
def particleToNodes (nodes : List (Node α)) (p : Particle α) : List Nat :=
  ((sortNodesByDist p nodes).take 4).map (fun n => n.id)

/-- nodeToParticles[nid]: ids of the particles connected to the node, in
particle input order (the order the source pushes them). -/
def nodeToParticles (nodes : List (Node α)) (particles : List (Particle α)) (nid : Nat) :
    List Nat :=
  (particles.filter (fun p => decide (nid ∈ particleToNodes nodes p))).map (fun p => p.id)

/-- The initial accumulator: every connected pair keyed in insertion order,
each slot filled with 1 (one slot per crack). -/
def initAcc (nodes : List (Node α)) (particles : List (Particle α)) (cracks : List (Crack α)) :
    FieldAcc :=
  particles.flatMap (fun p =>
    (particleToNodes nodes p).map (fun nid => ((nid, p.id), List.replicate cracks.length 1)))

/-- The consecutive segments of a crack polyline (empty when the polyline
has fewer than 2 points). -/
def Crack.segments (c : Crack α) : List (Point α × Point α) :=
  c.points.zip c.points.tail

/-- The (f2, f3) counters accumulated over a list of segments: how many
segments classify as 2 and as 3. -/
def countSegments (pPos nPos : Point α) : List (Point α × Point α) → Nat × Nat
  | [] => (0, 0)
  | se :: rest =>
    let r := checkCrossing pPos nPos se.1 se.2
    let c := countSegments pPos nPos rest
    ((if r.result = 2 then 1 else 0) + c.1, (if r.result = 3 then 1 else 0) + c.2)

/-- The cancellation of `utils.ts` (after the segment loop): when both
counters are positive, the minimum is subtracted from both. -/
def cancelCounts (f2 f3 : Nat) : Nat × Nat :=
  if f2 > 0 ∧ f3 > 0 then
    let m := min f2 f3
    (f2 - m, f3 - m)
  else (f2, f3)

/-- Final label derivation: 2 on odd post-cancellation f2, else 3 on odd
post-cancellation f3, else 1. -/
def finalFieldOf (f2 f3 : Nat) : Nat :=
  let c := cancelCounts f2 f3
  if c.1 % 2 = 1 then 2
  else if c.2 % 2 = 1 then 3
  else 1

/-- The state threaded through generateSimulationSteps: the steps pushed so
far, the step counter, and the mutable field accumulator. -/
structure GenState (α : Type) where
  steps : List (Step α)
  counter : Nat
  acc : FieldAcc
deriving Repr

/-- steps.push({stepId: stepCounter++, ...}). -/
def pushStep (g : GenState α) (mk : Nat → Step α) : GenState α :=
  { g with steps := g.steps ++ [mk g.counter], counter := g.counter + 1 }

/-- The initialization step record. -/
def initStep (snapshot : List (PairKey × Nat)) (sid : Nat) : Step α :=
  { stepId := sid
    description := StepDesc.initialization
    currentFieldState := snapshot }

/-- The crack-start marker step record. -/
def crackStartStep (cid : Nat) (snapshot : List (PairKey × Nat)) (sid : Nat) : Step α :=
  { stepId := sid
    description := StepDesc.processingCrack cid
    highlightCrackId := some cid
    currentFieldState := snapshot }

/-- The per-segment crossing-test step record. -/
def checkingStep (nid pid cid i : Nat) (pPos nPos s e : Point α) (r : CrossResult α)
    (counts : Nat × Nat) (snapshot : List (PairKey × Nat)) (sid : Nat) : Step α :=
  { stepId := sid
    description := StepDesc.checking nid pid i
    highlightNodeId := some nid
    highlightParticleId := some pid
    highlightCrackId := some cid
    highlightSegmentIndex := some i
    triangleA := some [pPos, nPos, s]
    triangleB := some [pPos, nPos, e]
    triangleC := some [s, e, pPos]
    triangleD := some [s, e, nPos]
    areas := some r.areas
    crossingResult := some r.result
    segmentCounts := some counts
    currentFieldState := snapshot }

/-- The per-pair result step record. -/
def resultStep (nid pid cid finalField : Nat) (snapshot : List (PairKey × Nat)) (sid : Nat) :
    Step α :=
  { stepId := sid
    description := StepDesc.resultPair nid pid finalField
    highlightNodeId := some nid
    highlightParticleId := some pid
    highlightCrackId := some cid
    crossingResult := some finalField
    currentFieldState := snapshot }

/-- The consistency-phase marker step record. -/
def phaseStep (cid : Nat) (snapshot : List (PairKey × Nat)) (sid : Nat) : Step α :=
  { stepId := sid
    description := StepDesc.consistencyPhase cid
    highlightCrackId := some cid
    currentFieldState := snapshot }

/-- The per-node seen-fields report step record. -/
def seesStep (nid : Nat) (sf : List Nat) (snapshot : List (PairKey × Nat)) (sid : Nat) :
    Step α :=
  { stepId := sid
    description := StepDesc.seesFields nid sf
    highlightNodeId := some nid
    consistencyNodeId := some nid
    consistencyFields := some sf
    currentFieldState := snapshot }

/-- The three-way conflict warning step record. -/
def warnStep (nid : Nat) (sf : List Nat) (snapshot : List (PairKey × Nat)) (sid : Nat) :
    Step α :=
  { stepId := sid
    description := StepDesc.warning nid
    highlightNodeId := some nid
    consistencyNodeId := some nid
    consistencyFields := some sf
    currentFieldState := snapshot }

/-- The normalization step record. -/
def normStep (nid : Nat) (sf : List Nat) (rm : Nat × Nat) (snapshot : List (PairKey × Nat))
    (sid : Nat) : Step α :=
  { stepId := sid
    description := StepDesc.normalizing nid rm.1 rm.2
    highlightNodeId := some nid
    consistencyNodeId := some nid
    consistencyFields := some sf
    normalizationAction := some rm
    currentFieldState := snapshot }

/-- The completion step record. -/
def completeStep (snapshot : List (PairKey × Nat)) (sid : Nat) : Step α :=
  { stepId := sid
    description := StepDesc.complete
    currentFieldState := snapshot }

/-- The segment loop of the crossing detection phase for one pair: tests
each segment, accumulates the counters, and pushes one step per segment
carrying the areas, the classification and the running counters. -/
def segmentLoop (pPos nPos : Point α) (nid pid cid : Nat) :
    List (Point α × Point α) → Nat → Nat → Nat → GenState α → GenState α × Nat × Nat
  | [], _, f2, f3, g => (g, f2, f3)
  | (s, e) :: rest, i, f2, f3, g =>
    let r := checkCrossing pPos nPos s e
    let f2n := if r.result = 2 then f2 + 1 else f2
    let f3n := if r.result = 3 then f3 + 1 else f3
    let g1 := pushStep g
      (checkingStep nid pid cid i pPos nPos s e r (f2n, f3n) (computeCombinedField g.acc))
    segmentLoop pPos nPos nid pid cid rest (i + 1) f2n f3n g1

/-- Crossing detection and result recording for one (particle, node) pair
of the current crack: runs the segment loop, applies cancellation, writes
the final label into the accumulator slot, and pushes a result step when
the label changed or is not 1. -/
def processPair (nodes : List (Node α)) (crack : Crack α) (crackIdx : Nat)
    (p : Particle α) (nid : Nat) (g : GenState α) : GenState α :=
  match nodes.find? (fun node => decide (node.id = nid)) with
  | none => g
  | some n =>
    let key : PairKey := (n.id, p.id)
    let r := segmentLoop p.pos n.pos n.id p.id crack.id crack.segments 0 0 0 g
    let g1 := r.1
    let finalField := finalFieldOf r.2.1 r.2.2
    let changed := slotOf g1.acc crackIdx key ≠ finalField
    let g2 : GenState α := { g1 with acc := setSlot g1.acc key crackIdx finalField }
    if changed ∨ finalField ≠ 1 then
      pushStep g2 (resultStep n.id p.id crack.id finalField (computeCombinedField g2.acc))
    else g2

/-- Phase 2 of a crack: every particle, then each of its connected nodes. -/
def crossingPhase (nodes : List (Node α)) (particles : List (Particle α)) (crack : Crack α)
    (crackIdx : Nat) (g : GenState α) : GenState α :=
  particles.foldl (fun g p =>
    (particleToNodes nodes p).foldl (fun g nid => processPair nodes crack crackIdx p nid g) g) g

/-- The sorted set of distinct labels the node sees from its connected
particles for the current crack (a Set in the source, then sorted
ascending numerically). -/
def sortedFieldsOf (acc : FieldAcc) (crackIdx nid : Nat) (pids : List Nat) : List Nat :=
  sortByLe (fun a b => decide (a ≤ b))
    ((pids.map (fun pid => slotOf acc crackIdx (nid, pid))).dedup)

/-- The remap loop of the normalization step: every pair of the node whose
label for the current crack is the remap source is overwritten with the
remap target. -/
def remapLoop (crackIdx nid rFrom rTo : Nat) (pids : List Nat) (acc0 : FieldAcc) : FieldAcc :=
  pids.foldl (fun acc pid =>
    if slotOf acc crackIdx (nid, pid) = rFrom then
      setSlot acc (nid, pid) crackIdx rTo
    else acc) acc0

/-- Consistency check and normalization for one node: report the seen
label set, warn on a three-way conflict, and on a {1,2} or {1,3} conflict
remap this node's label-1 pairs to the committed opposite side. -/
def consistencyNode (crackIdx : Nat) (pids : List Nat) (n : Node α) (g : GenState α) :
    GenState α :=
  if pids.length = 0 then g
  else
    let sortedFields := sortedFieldsOf g.acc crackIdx n.id pids
    let g1 := pushStep g (seesStep n.id sortedFields (computeCombinedField g.acc))
    let g2 :=
      if sortedFields.length = 3 then
        pushStep g1 (warnStep n.id sortedFields (computeCombinedField g1.acc))
      else g1
    if sortedFields.length = 2 then
      let target : Option (Nat × Nat) :=
        if 1 ∈ sortedFields ∧ 2 ∈ sortedFields then some (1, 3)
        else if 1 ∈ sortedFields ∧ 3 ∈ sortedFields then some (1, 2)
        else none
      match target with
      | none => g2
      | some rm =>
        let g3 : GenState α := { g2 with acc := remapLoop crackIdx n.id rm.1 rm.2 pids g2.acc }
        pushStep g3 (normStep n.id sortedFields rm (computeCombinedField g3.acc))
    else g2

/-- One full crack: the crack-start marker, the crossing phase, the
consistency-phase marker, then the per-node consistency pass. -/
def processCrack (nodes : List (Node α)) (particles : List (Particle α)) (crack : Crack α)
    (crackIdx : Nat) (g : GenState α) : GenState α :=
  let g1 := pushStep g (crackStartStep crack.id (computeCombinedField g.acc))
  let g2 := crossingPhase nodes particles crack crackIdx g1
  let g3 := pushStep g2 (phaseStep crack.id (computeCombinedField g2.acc))
  nodes.foldl (fun g n =>
    consistencyNode crackIdx (nodeToParticles nodes particles n.id) n g) g3

/-- `utils.ts` generateSimulationSteps, exposing the final generator state
(the step list it returns together with the final accumulator). -/
def generateAux (nodes : List (Node α)) (particles : List (Particle α))
    (cracks : List (Crack α)) : GenState α :=
  let g0 : GenState α := { steps := [], counter := 0, acc := initAcc nodes particles cracks }
  let g1 := pushStep g0 (initStep (computeCombinedField g0.acc))
  let g2 := cracks.enum.foldl (fun g ic => processCrack nodes particles ic.2 ic.1 g) g1
  pushStep g2 (completeStep (computeCombinedField g2.acc))

/-- `utils.ts` generateSimulationSteps: the returned trace. -/
def generateSimulationSteps (nodes : List (Node α)) (particles : List (Particle α))
    (cracks : List (Crack α)) : List (Step α) :=
  (generateAux nodes particles cracks).steps

/-- `types.ts` SimulationState: one preset input. -/
structure SimulationState (α : Type) where
  nodes : List (Node α)
  particles : List (Particle α)
  cracks : List (Crack α)
deriving Repr

namespace presets

/-- `utils.ts` presets.case1. -/
def case1 : SimulationState ℚ :=
  { nodes := [⟨0, 2, 2⟩, ⟨1, 8, 2⟩, ⟨2, 2, 8⟩, ⟨3, 8, 8⟩]
    particles := [⟨0, 5, 4⟩, ⟨1, 5, 6⟩]
    cracks := [⟨0, [⟨1, 5⟩, ⟨9, 5⟩]⟩] }

/-- `utils.ts` presets.case2. -/
def case2 : SimulationState ℚ :=
  { nodes := [⟨0, 2, 2⟩, ⟨1, 5, 2⟩, ⟨2, 8, 2⟩, ⟨3, 2, 5⟩, ⟨4, 5, 5⟩, ⟨5, 8, 5⟩,
              ⟨6, 2, 8⟩, ⟨7, 5, 8⟩, ⟨8, 8, 8⟩]
    particles := [⟨0, 7/2, 7/2⟩, ⟨1, 13/2, 7/2⟩, ⟨2, 7/2, 13/2⟩, ⟨3, 13/2, 13/2⟩]
    cracks := [⟨0, [⟨1, 1⟩, ⟨9, 9⟩]⟩] }

/-- `utils.ts` presets.case3. -/
def case3 : SimulationState ℚ :=
  { nodes := [⟨0, 2, 2⟩, ⟨1, 5, 2⟩, ⟨2, 8, 2⟩, ⟨3, 2, 5⟩, ⟨4, 5, 5⟩, ⟨5, 8, 5⟩,
              ⟨6, 2, 8⟩, ⟨7, 5, 8⟩, ⟨8, 8, 8⟩]
    particles := [⟨0, 7/2, 7/2⟩, ⟨1, 13/2, 7/2⟩, ⟨2, 7/2, 13/2⟩, ⟨3, 13/2, 13/2⟩]
    cracks := [⟨0, [⟨0, 5⟩, ⟨10, 5⟩]⟩, ⟨1, [⟨5, 0⟩, ⟨5, 10⟩]⟩] }

end presets

/-- The case1 preset data over integer coordinates (all its coordinates are
integral), used for exact concrete evaluation: the nodes. -/
def case1Nodes : List (Node ℤ) := [⟨0, 2, 2⟩, ⟨1, 8, 2⟩, ⟨2, 2, 8⟩, ⟨3, 8, 8⟩]

/-- The case1 particles over integer coordinates. -/
def case1Particles : List (Particle ℤ) := [⟨0, 5, 4⟩, ⟨1, 5, 6⟩]

/-- The case1 crack over integer coordinates. -/
def case1Cracks : List (Crack ℤ) := [⟨0, [⟨1, 5⟩, ⟨9, 5⟩]⟩]

/-- A label value the accumulator may hold. -/
def LabelOk (v : Nat) : Prop := v = 1 ∨ v = 2 ∨ v = 3

/-- Every slot of every accumulator entry holds a label in {1, 2, 3}. -/
def AccValid (acc : FieldAcc) : Prop := ∀ e ∈ acc, ∀ v ∈ e.2, LabelOk v

/-- Every accumulator entry holds label 1 in the slot of crack i. -/
def SlotsOne (i : Nat) (acc : FieldAcc) : Prop := ∀ e ∈ acc, e.2.getD i 0 = 1

/-- The accumulator has a key for every connected (node, particle) pair. -/
def KeysCover (nodes : List (Node α)) (particles : List (Particle α)) (acc : FieldAcc) :
    Prop :=
  ∀ p ∈ particles, ∀ nid ∈ particleToNodes nodes p, (nid, p.id) ∈ keysOf acc

/-- A step pushed by a per-segment crossing test. -/
def IsCheckingStep (s : Step α) : Prop := ∃ a b k, s.description = StepDesc.checking a b k

/-- A step pushed to record the final label of a pair. -/
def IsResultStep (s : Step α) : Prop := ∃ a b f, s.description = StepDesc.resultPair a b f

/-- Whether a step is the three-way conflict warning. -/
def Step.isWarning (s : Step α) : Bool :=
  match s.description with
  | StepDesc.warning _ => true
  | _ => false

/-- Whether a step records a normalization remap. -/
def Step.isNormalizing (s : Step α) : Bool :=
  match s.description with
  | StepDesc.normalizing _ _ _ => true
  | _ => false

/-- Modelled from the spec: the trace body §7 predicts for empty nodes or
particles, amended to what the code emits: per crack, the crack-start
marker and the consistency-phase marker (with the empty snapshot),
consecutively numbered from the given counter. -/
def markerSteps : List (Nat × Crack α) → Nat → List (Step α)
  | [], _ => []
  | ic :: rest, k =>
    crackStartStep ic.2.id [] k :: phaseStep ic.2.id [] (k + 1) :: markerSteps rest (k + 2)

/-- Invariant-advancing property of a generator phase: it preserves P on
the accumulator and every step it appends satisfies Q and snapshots an
accumulator satisfying P. -/
def Advances (P : FieldAcc → Prop) (Q : Step α → Prop) (F : GenState α → GenState α) : Prop :=
  ∀ g : GenState α, P g.acc →
    P (F g).acc ∧
    ∀ s ∈ (F g).steps, s ∈ g.steps ∨
      (Q s ∧ ∃ acc, P acc ∧ s.currentFieldState = computeCombinedField acc)

/-! ## Basic lemmas about the geometry predicate -/

theorem triangleArea_swap (a b c : Point α) : triangleArea b a c = -triangleArea a b c := by
  unfold triangleArea; ring

theorem checkCrossing_result_eq (p n s e : Point α) :
    (checkCrossing p n s e).result =
      if triangleArea p n s < 0 ∧ triangleArea p n e ≥ 0 ∧
          triangleArea s e p ≥ 0 ∧ triangleArea s e n < 0 then 2
      else if triangleArea p n s ≥ 0 ∧ triangleArea p n e < 0 ∧
          triangleArea s e p < 0 ∧ triangleArea s e n ≥ 0 then 3
      else 0 := rfl

theorem checkCrossing_areas (p n s e : Point α) :
    (checkCrossing p n s e).areas =
      ⟨triangleArea p n s, triangleArea p n e, triangleArea s e p, triangleArea s e n⟩ := rfl

/-- C1: checkCrossing computes the four signed areas by the stated
triangleArea formula and classifies exactly by the stated sign patterns:
2 for [-,+,+,-], 3 for [+,-,-,+], 0 otherwise, returning the raw areas. -/
theorem checkCrossing_spec (p n s e : Point α) :
    (checkCrossing p n s e).areas.area1 =
        p.x * (n.y - s.y) + n.x * (s.y - p.y) + s.x * (p.y - n.y) ∧
    (checkCrossing p n s e).areas.area2 =
        p.x * (n.y - e.y) + n.x * (e.y - p.y) + e.x * (p.y - n.y) ∧
    (checkCrossing p n s e).areas.area3 =
        s.x * (e.y - p.y) + e.x * (p.y - s.y) + p.x * (s.y - e.y) ∧
    (checkCrossing p n s e).areas.area4 =
        s.x * (e.y - n.y) + e.x * (n.y - s.y) + n.x * (s.y - e.y) ∧
    ((checkCrossing p n s e).result = 2 ↔
      triangleArea p n s < 0 ∧ triangleArea p n e ≥ 0 ∧
        triangleArea s e p ≥ 0 ∧ triangleArea s e n < 0) ∧
    ((checkCrossing p n s e).result = 3 ↔
      triangleArea p n s ≥ 0 ∧ triangleArea p n e < 0 ∧
        triangleArea s e p < 0 ∧ triangleArea s e n ≥ 0) ∧
    ((checkCrossing p n s e).result = 0 ↔
      ¬(triangleArea p n s < 0 ∧ triangleArea p n e ≥ 0 ∧
          triangleArea s e p ≥ 0 ∧ triangleArea s e n < 0) ∧
      ¬(triangleArea p n s ≥ 0 ∧ triangleArea p n e < 0 ∧
          triangleArea s e p < 0 ∧ triangleArea s e n ≥ 0)) := by
  refine ⟨rfl, rfl, rfl, rfl, ?_, ?_, ?_⟩ <;> rw [checkCrossing_result_eq] <;>
    split_ifs with h1 h2
  · simp [h1]
  · have hn : ¬(triangleArea p n s < 0 ∧ triangleArea p n e ≥ 0 ∧
        triangleArea s e p ≥ 0 ∧ triangleArea s e n < 0) := h1
    simp [hn]
  · simp [h1]
  · have hn3 : ¬(triangleArea p n s ≥ 0 ∧ triangleArea p n e < 0 ∧
        triangleArea s e p < 0 ∧ triangleArea s e n ≥ 0) := by
      intro hc
      exact absurd h1.1 (not_lt.mpr hc.1)
    simp [hn3]
  · simp [h2]
  · simp [h1, h2]
  · simp [h1]
  · simp [h1, h2]
  · simp [h1, h2]

/-- C8 counterexample: a configuration the code classifies as result 2
whose reversed-segment classification is 0, not 3 (the particle lies on
the crack line, area3 = 0). -/
theorem checkCrossing_reverse_cex :
    (checkCrossing (α := ℤ) ⟨1, 0⟩ ⟨1, -1⟩ ⟨0, 0⟩ ⟨2, 0⟩).result = 2 ∧
    (checkCrossing (α := ℤ) ⟨1, 0⟩ ⟨1, -1⟩ ⟨2, 0⟩ ⟨0, 0⟩).result = 0 ∧
    (checkCrossing (α := ℤ) ⟨1, 0⟩ ⟨1, -1⟩ ⟨2, 0⟩ ⟨0, 0⟩).result ≠ 3 := by
  refine ⟨by decide, by decide, by decide⟩

/-- C8 (amended): with the segment reversed, a result-2 classification
becomes result 3 provided the particle is not collinear with the segment
(area3 nonzero), and a result-3 classification becomes result 2 provided
the node is not collinear with the segment (area4 nonzero); on the
collinear boundary the reversed test classifies 0 instead. -/
theorem checkCrossing_reverse (p n s e : Point α) :
    ((checkCrossing p n s e).result = 2 → triangleArea s e p ≠ 0 →
      (checkCrossing p n e s).result = 3) ∧
    ((checkCrossing p n s e).result = 3 → triangleArea s e n ≠ 0 →
      (checkCrossing p n e s).result = 2) := by
  have hswp : triangleArea e s p = -triangleArea s e p := triangleArea_swap s e p
  have hswn : triangleArea e s n = -triangleArea s e n := triangleArea_swap s e n
  constructor
  · intro h2 hne
    rw [checkCrossing_result_eq] at h2
    split_ifs at h2 with hp1 hp2
    · rw [checkCrossing_result_eq, hswp, hswn]
      obtain ⟨a1, a2, a3, a4⟩ := hp1
      have hc2 : ¬(triangleArea p n e < 0 ∧ triangleArea p n s ≥ 0 ∧
          -triangleArea s e p ≥ 0 ∧ -triangleArea s e n < 0) :=
        fun hc => absurd a2 (not_le.mpr hc.1)
      have hc3 : triangleArea p n e ≥ 0 ∧ triangleArea p n s < 0 ∧
          -triangleArea s e p < 0 ∧ -triangleArea s e n ≥ 0 := by
        have h3p : 0 < triangleArea s e p := lt_of_le_of_ne a3 (Ne.symm hne)
        exact ⟨a2, a1, by linarith, by linarith⟩
      rw [if_neg hc2, if_pos hc3]
    · exact absurd h2 (by omega)
  · intro h3 hne
    rw [checkCrossing_result_eq] at h3
    split_ifs at h3 with hp1 hp2
    · exact absurd h3 (by omega)
    · rw [checkCrossing_result_eq, hswp, hswn]
      obtain ⟨a1, a2, a3, a4⟩ := hp2
      have hc2 : triangleArea p n e < 0 ∧ triangleArea p n s ≥ 0 ∧
          -triangleArea s e p ≥ 0 ∧ -triangleArea s e n < 0 := by
        have h4p : 0 < triangleArea s e n := lt_of_le_of_ne a4 (Ne.symm hne)
        exact ⟨a2, a1, by linarith, by linarith⟩
      rw [if_pos hc2]

/-- C8 witness: a genuine crossing, classified 2 forward and 3 reversed. -/
theorem checkCrossing_reverse_witness :
    (checkCrossing (α := ℤ) ⟨1, 1⟩ ⟨1, -1⟩ ⟨0, 0⟩ ⟨2, 0⟩).result = 2 ∧
    triangleArea (α := ℤ) ⟨0, 0⟩ ⟨2, 0⟩ ⟨1, 1⟩ ≠ 0 ∧
    (checkCrossing (α := ℤ) ⟨1, 1⟩ ⟨1, -1⟩ ⟨2, 0⟩ ⟨0, 0⟩).result = 3 :=
  ⟨by decide, by decide,
    (checkCrossing_reverse ⟨1, 1⟩ ⟨1, -1⟩ ⟨0, 0⟩ ⟨2, 0⟩).1 (by decide) (by decide)⟩

/-! ## The segment loop and the cancellation law -/

theorem segmentLoop_acc (pPos nPos : Point α) (nid pid cid : Nat) :
    ∀ (segs : List (Point α × Point α)) (i f2 f3 : Nat) (g : GenState α),
      (segmentLoop pPos nPos nid pid cid segs i f2 f3 g).1.acc = g.acc := by
  intro segs
  induction segs with
  | nil => intro i f2 f3 g; rfl
  | cons se rest ih =>
    intro i f2 f3 g
    obtain ⟨s, e⟩ := se
    exact ih (i + 1) _ _ _

theorem segmentLoop_counts (pPos nPos : Point α) (nid pid cid : Nat) :
    ∀ (segs : List (Point α × Point α)) (i f2 f3 : Nat) (g : GenState α),
      (segmentLoop pPos nPos nid pid cid segs i f2 f3 g).2 =
        (f2 + (countSegments pPos nPos segs).1, f3 + (countSegments pPos nPos segs).2) := by
  intro segs
  induction segs with
  | nil => intro i f2 f3 g; simp [segmentLoop, countSegments]
  | cons se rest ih =>
    intro i f2 f3 g
    obtain ⟨s, e⟩ := se
    show (segmentLoop pPos nPos nid pid cid rest (i + 1) _ _ _).2 = _
    rw [ih]
    simp only [countSegments]
    rw [Prod.ext_iff]
    constructor <;> dsimp only <;> split <;> omega

theorem segmentLoop_steps (pPos nPos : Point α) (nid pid cid : Nat) :
    ∀ (segs : List (Point α × Point α)) (i f2 f3 : Nat) (g : GenState α),
      ∃ new, (segmentLoop pPos nPos nid pid cid segs i f2 f3 g).1.steps = g.steps ++ new ∧
        ∀ s ∈ new, (∃ j, s.description = StepDesc.checking nid pid j) ∧
          s.highlightCrackId = some cid ∧
          s.currentFieldState = computeCombinedField g.acc := by
  intro segs
  induction segs with
  | nil => intro i f2 f3 g; exact ⟨[], by simp [segmentLoop]⟩
  | cons se rest ih =>
    intro i f2 f3 g
    obtain ⟨s0, e0⟩ := se
    set r := checkCrossing pPos nPos s0 e0 with hr
    set f2n := if r.result = 2 then f2 + 1 else f2 with hf2
    set f3n := if r.result = 3 then f3 + 1 else f3 with hf3
    set g1 := pushStep g
      (checkingStep nid pid cid i pPos nPos s0 e0 r (f2n, f3n) (computeCombinedField g.acc))
      with hg1
    obtain ⟨new1, hsteps, hprops⟩ := ih (i + 1) f2n f3n g1
    refine ⟨checkingStep nid pid cid i pPos nPos s0 e0 r (f2n, f3n)
        (computeCombinedField g.acc) g.counter :: new1, ?_, ?_⟩
    · show (segmentLoop pPos nPos nid pid cid rest (i + 1) f2n f3n g1).1.steps = _
      rw [hsteps, hg1]
      simp [pushStep]
    · intro st hst
      rcases List.mem_cons.mp hst with h | h
      · subst h
        exact ⟨⟨i, rfl⟩, rfl, rfl⟩
      · have := hprops st h
        have hacc1 : g1.acc = g.acc := rfl
        rw [hacc1] at this
        exact this

theorem processPair_none (nodes : List (Node α)) (crack : Crack α) (crackIdx : Nat)
    (p : Particle α) (nid : Nat) (g : GenState α)
    (h : nodes.find? (fun node => decide (node.id = nid)) = none) :
    processPair nodes crack crackIdx p nid g = g := by
  unfold processPair
  rw [h]

theorem processPair_acc (nodes : List (Node α)) (crack : Crack α) (crackIdx : Nat)
    (p : Particle α) (nid : Nat) (g : GenState α) (n : Node α)
    (h : nodes.find? (fun node => decide (node.id = nid)) = some n) :
    (processPair nodes crack crackIdx p nid g).acc =
      setSlot g.acc (n.id, p.id) crackIdx
        (finalFieldOf (countSegments p.pos n.pos crack.segments).1
          (countSegments p.pos n.pos crack.segments).2) := by
  unfold processPair
  rw [h]
  dsimp only
  rw [segmentLoop_counts]
  dsimp only
  rw [segmentLoop_acc]
  simp only [Nat.zero_add]
  split <;> rfl

/-- C2: after a crack segment pass accumulates the f2 and f3 counters for
one pair, cancellation subtracts min(f2, f3) from both when both are
positive, leaves at least one counter at 0, and the accumulator slot is
overwritten with label 2 iff the post-cancellation f2 is odd, else 3 iff
the post-cancellation f3 is odd, else 1. -/
theorem cancellation_spec :
    (∀ f2 f3 : Nat,
      (0 < f2 → 0 < f3 →
        (cancelCounts f2 f3).1 = f2 - min f2 f3 ∧ (cancelCounts f2 f3).2 = f3 - min f2 f3) ∧
      ((cancelCounts f2 f3).1 = 0 ∨ (cancelCounts f2 f3).2 = 0) ∧
      (finalFieldOf f2 f3 = 2 ↔ (cancelCounts f2 f3).1 % 2 = 1) ∧
      (finalFieldOf f2 f3 = 3 ↔
        ¬(cancelCounts f2 f3).1 % 2 = 1 ∧ (cancelCounts f2 f3).2 % 2 = 1) ∧
      (finalFieldOf f2 f3 = 1 ↔
        ¬(cancelCounts f2 f3).1 % 2 = 1 ∧ ¬(cancelCounts f2 f3).2 % 2 = 1)) ∧
    (∀ (β : Type) (inst : LinearOrderedCommRing β) (nodes : List (Node β)) (crack : Crack β)
        (crackIdx : Nat) (p : Particle β) (nid : Nat) (g : GenState β) (n : Node β),
      nodes.find? (fun node => decide (node.id = nid)) = some n →
      (processPair nodes crack crackIdx p nid g).acc =
        setSlot g.acc (n.id, p.id) crackIdx
          (finalFieldOf (countSegments p.pos n.pos crack.segments).1
            (countSegments p.pos n.pos crack.segments).2)) := by
  constructor
  · intro f2 f3
    unfold finalFieldOf cancelCounts
    simp only [Nat.min_def]
    split_ifs <;> dsimp only <;> omega
  · intro β inst nodes crack crackIdx p nid g n h
    exact processPair_acc nodes crack crackIdx p nid g n h

/-- C2 witness: the cancellation law evaluated at f2 = 3, f3 = 2. -/
theorem cancellation_spec_witness :
    ((cancelCounts 3 2).1 = 0 ∨ (cancelCounts 3 2).2 = 0) ∧
    (finalFieldOf 3 2 = 2 ↔ (cancelCounts 3 2).1 % 2 = 1) :=
  ⟨(cancellation_spec.1 3 2).2.1, (cancellation_spec.1 3 2).2.2.1⟩

/-! ## Accumulator lemmas -/

theorem getD_set_self (v : Nat) : ∀ (l : List Nat) (i : Nat),
    (l.set i v).getD i 0 = if i < l.length then v else 0 := by
  intro l
  induction l with
  | nil => intro i; simp
  | cons a t ih =>
    intro i
    cases i with
    | zero => simp
    | succ j =>
      simp only [List.set_cons_succ, List.getD_cons_succ, List.length_cons]
      rw [ih j]
      by_cases h : j < t.length
      · rw [if_pos h, if_pos (by omega)]
      · rw [if_neg h, if_neg (by omega)]

theorem getD_set_ne (v : Nat) : ∀ (l : List Nat) {i j : Nat}, j ≠ i →
    (l.set i v).getD j 0 = l.getD j 0 := by
  intro l
  induction l with
  | nil => intro i j _; simp
  | cons a t ih =>
    intro i j hne
    cases i with
    | zero =>
      cases j with
      | zero => exact absurd rfl hne
      | succ m => simp
    | succ n =>
      cases j with
      | zero => simp
      | succ m =>
        simp only [List.set_cons_succ, List.getD_cons_succ]
        exact ih (by omega)

theorem getD_pos_lt (l : List Nat) (i : Nat) (h : l.getD i 0 ≠ 0) : i < l.length := by
  by_contra hc
  rw [List.getD_eq_default l 0 (by omega)] at h
  exact h rfl

theorem lookupAcc_cons (e : PairKey × List Nat) (rest : FieldAcc) (k : PairKey) :
    lookupAcc (e :: rest) k = if e.1 = k then e.2 else lookupAcc rest k := by
  unfold lookupAcc
  by_cases h : e.1 = k
  · have hd : (fun e : PairKey × List Nat => decide (e.1 = k)) e = true := by simpa using h
    rw [List.find?_cons_of_pos rest hd, if_pos h]
  · have hd : ¬(fun e : PairKey × List Nat => decide (e.1 = k)) e = true := by simpa using h
    rw [List.find?_cons_of_neg rest hd, if_neg h]

theorem keysOf_cons (e : PairKey × List Nat) (rest : FieldAcc) :
    keysOf (e :: rest) = e.1 :: keysOf rest := rfl

theorem setSlot_cons (e : PairKey × List Nat) (rest : FieldAcc) (k : PairKey) (i v : Nat) :
    setSlot (e :: rest) k i v =
      (if e.1 = k then (e.1, e.2.set i v) else e) :: setSlot rest k i v := rfl

theorem lookupAcc_setSlot (k : PairKey) (i v : Nat) (k2 : PairKey) :
    ∀ acc : FieldAcc, lookupAcc (setSlot acc k i v) k2 =
      if k2 = k then (lookupAcc acc k2).set i v else lookupAcc acc k2 := by
  intro acc
  induction acc with
  | nil =>
    show lookupAcc [] k2 = if k2 = k then (lookupAcc [] k2).set i v else lookupAcc [] k2
    unfold lookupAcc
    simp only [List.find?_nil]
    split <;> simp
  | cons e rest ih =>
    rw [setSlot_cons, lookupAcc_cons, lookupAcc_cons]
    by_cases hek : e.1 = k
    · rw [if_pos hek]
      by_cases hek2 : e.1 = k2
      · have hk2k : k2 = k := by rw [← hek2, hek]
        simp [hek2, hk2k]
      · have hk2k : k2 ≠ k := fun hc => hek2 (by rw [hek, hc])
        simp [if_neg hek2, if_neg hk2k, ih]
    · rw [if_neg hek]
      by_cases hek2 : e.1 = k2
      · have hk2k : k2 ≠ k := fun hc => hek (by rw [hek2, hc])
        simp [if_pos hek2, if_neg hk2k]
      · simp [if_neg hek2, ih]

theorem slotOf_setSlot_ne_idx (acc : FieldAcc) (k : PairKey) {i j : Nat} (v : Nat)
    (h : j ≠ i) (k2 : PairKey) :
    slotOf (setSlot acc k i v) j k2 = slotOf acc j k2 := by
  unfold slotOf
  rw [lookupAcc_setSlot]
  split
  · next hk => rw [hk, getD_set_ne v _ h]
  · rfl

theorem slotOf_setSlot_other (acc : FieldAcc) {k k2 : PairKey} (i v : Nat)
    (h : k2 ≠ k) (j : Nat) :
    slotOf (setSlot acc k i v) j k2 = slotOf acc j k2 := by
  unfold slotOf
  rw [lookupAcc_setSlot, if_neg h]

theorem slotOf_setSlot_self (acc : FieldAcc) (k : PairKey) (i : Nat) (v : Nat)
    (h : i < (lookupAcc acc k).length) :
    slotOf (setSlot acc k i v) i k = v := by
  unfold slotOf
  rw [lookupAcc_setSlot, if_pos rfl, getD_set_self, if_pos h]

theorem keysOf_setSlot (k : PairKey) (i v : Nat) :
    ∀ acc : FieldAcc, keysOf (setSlot acc k i v) = keysOf acc := by
  intro acc
  induction acc with
  | nil => rfl
  | cons e rest ih =>
    rw [setSlot_cons, keysOf_cons, keysOf_cons, ih]
    congr 1
    split <;> rfl

theorem mem_keysOf_iff (k : PairKey) (acc : FieldAcc) :
    k ∈ keysOf acc ↔ ∃ e ∈ acc, e.1 = k := by
  constructor
  · intro h
    obtain ⟨e, he, hk⟩ := List.mem_map.mp h
    exact ⟨e, he, hk⟩
  · rintro ⟨e, he, hk⟩
    exact List.mem_map.mpr ⟨e, he, hk⟩

theorem lookupAcc_mem (acc : FieldAcc) (k : PairKey) (h : k ∈ keysOf acc) :
    ∃ e ∈ acc, e.1 = k ∧ lookupAcc acc k = e.2 := by
  unfold lookupAcc
  cases hf : acc.find? (fun e => decide (e.1 = k)) with
  | none =>
    rw [List.find?_eq_none] at hf
    obtain ⟨e, he, hk⟩ := (mem_keysOf_iff k acc).mp h
    exact absurd (by simpa using hk) (hf e he)
  | some e =>
    refine ⟨e, List.mem_of_find?_eq_some hf, ?_, rfl⟩
    have := List.find?_some hf
    simpa using this

theorem slotOf_of_slotsOne {i : Nat} {acc : FieldAcc} (h1 : SlotsOne i acc)
    {k : PairKey} (hk : k ∈ keysOf acc) : slotOf acc i k = 1 := by
  obtain ⟨e, he, _, hl⟩ := lookupAcc_mem acc k hk
  rw [slotOf, hl]
  exact h1 e he

theorem slotsOne_setSlot_ne {i : Nat} {acc : FieldAcc} (h : SlotsOne i acc)
    (k : PairKey) {j : Nat} (v : Nat) (hne : j ≠ i) : SlotsOne i (setSlot acc k j v) := by
  intro e2 he2
  obtain ⟨e, he, hfe⟩ := List.mem_map.mp he2
  subst hfe
  split
  · exact (getD_set_ne v e.2 (fun hc => hne hc.symm)).trans (h e he)
  · exact h e he

theorem slotsOne_setSlot_one {i : Nat} {acc : FieldAcc} (h : SlotsOne i acc)
    (k : PairKey) : SlotsOne i (setSlot acc k i 1) := by
  intro e2 he2
  obtain ⟨e, he, hfe⟩ := List.mem_map.mp he2
  subst hfe
  split
  · have h1 := h e he
    have hlen : i < e.2.length := getD_pos_lt e.2 i (by omega)
    rw [getD_set_self, if_pos hlen]
  · exact h e he

theorem accValid_setSlot {acc : FieldAcc} (h : AccValid acc) (k : PairKey) (i : Nat)
    {v : Nat} (hv : LabelOk v) : AccValid (setSlot acc k i v) := by
  intro e2 he2
  obtain ⟨e, he, hfe⟩ := List.mem_map.mp he2
  subst hfe
  intro w hw
  split at hw
  · simp only at hw
    rcases List.mem_or_eq_of_mem_set hw with h2 | h2
    · exact h e he w h2
    · exact h2 ▸ hv
  · exact h e he w hw

theorem keysCover_setSlot {nodes : List (Node α)} {particles : List (Particle α)}
    {acc : FieldAcc} (h : KeysCover nodes particles acc) (k : PairKey) (i v : Nat) :
    KeysCover nodes particles (setSlot acc k i v) := by
  intro p hp nid hnid
  rw [keysOf_setSlot k i v acc]
  exact h p hp nid hnid

/-! ## The remap loop and seen-field sets -/

theorem remapLoop_cons (crackIdx nid rFrom rTo pid : Nat) (rest : List Nat) (acc : FieldAcc) :
    remapLoop crackIdx nid rFrom rTo (pid :: rest) acc =
      remapLoop crackIdx nid rFrom rTo rest
        (if slotOf acc crackIdx (nid, pid) = rFrom then
          setSlot acc (nid, pid) crackIdx rTo
        else acc) := rfl

theorem remapLoop_slot (crackIdx nid rFrom rTo : Nat) (h0 : rFrom ≠ 0) (hne : rTo ≠ rFrom) :
    ∀ (pids : List Nat) (acc : FieldAcc) (k : PairKey),
      slotOf (remapLoop crackIdx nid rFrom rTo pids acc) crackIdx k =
        if k.1 = nid ∧ k.2 ∈ pids ∧ slotOf acc crackIdx k = rFrom then rTo
        else slotOf acc crackIdx k := by
  intro pids
  induction pids with
  | nil => intro acc k; simp [remapLoop]
  | cons pid rest ih =>
    intro acc k
    rw [remapLoop_cons, ih]
    by_cases hw : slotOf acc crackIdx (nid, pid) = rFrom
    · rw [if_pos hw]
      by_cases hk : k = (nid, pid)
      · subst hk
        have hlen : crackIdx < (lookupAcc acc (nid, pid)).length :=
          getD_pos_lt _ _ (by rw [← slotOf]; omega)
        have hset : slotOf (setSlot acc (nid, pid) crackIdx rTo) crackIdx (nid, pid) = rTo :=
          slotOf_setSlot_self acc (nid, pid) crackIdx rTo hlen
        rw [hset]
        rw [if_neg (fun hc => hne hc.2.2), if_pos ⟨rfl, List.mem_cons_self pid rest, hw⟩]
      · have hset : slotOf (setSlot acc (nid, pid) crackIdx rTo) crackIdx k =
            slotOf acc crackIdx k := slotOf_setSlot_other acc crackIdx rTo hk crackIdx
        rw [hset]
        have hcond : (k.1 = nid ∧ k.2 ∈ pid :: rest ∧ slotOf acc crackIdx k = rFrom) ↔
            (k.1 = nid ∧ k.2 ∈ rest ∧ slotOf acc crackIdx k = rFrom) := by
          constructor
          · rintro ⟨ha, hb, hc⟩
            rcases List.mem_cons.mp hb with hb1 | hb1
            · exact absurd (Prod.ext_iff.mpr ⟨ha, hb1⟩) hk
            · exact ⟨ha, hb1, hc⟩
          · rintro ⟨ha, hb, hc⟩
            exact ⟨ha, List.mem_cons_of_mem _ hb, hc⟩
        rw [if_congr hcond rfl rfl]
    · rw [if_neg hw]
      have hcond : (k.1 = nid ∧ k.2 ∈ pid :: rest ∧ slotOf acc crackIdx k = rFrom) ↔
          (k.1 = nid ∧ k.2 ∈ rest ∧ slotOf acc crackIdx k = rFrom) := by
        constructor
        · rintro ⟨ha, hb, hc⟩
          rcases List.mem_cons.mp hb with hb1 | hb1
          · have hkk : k = (nid, pid) := Prod.ext_iff.mpr ⟨ha, hb1⟩
            exact absurd hc (by rw [hkk]; exact hw)
          · exact ⟨ha, hb1, hc⟩
        · rintro ⟨ha, hb, hc⟩
          exact ⟨ha, List.mem_cons_of_mem _ hb, hc⟩
      rw [if_congr hcond rfl rfl]

theorem remapLoop_keysOf (crackIdx nid rFrom rTo : Nat) :
    ∀ (pids : List Nat) (acc : FieldAcc),
      keysOf (remapLoop crackIdx nid rFrom rTo pids acc) = keysOf acc := by
  intro pids
  induction pids with
  | nil => intro acc; rfl
  | cons pid rest ih =>
    intro acc
    rw [remapLoop_cons, ih]
    split
    · exact keysOf_setSlot _ _ _ acc
    · rfl

theorem remapLoop_accValid (crackIdx nid rFrom rTo : Nat) (ht : LabelOk rTo) :
    ∀ (pids : List Nat) (acc : FieldAcc), AccValid acc →
      AccValid (remapLoop crackIdx nid rFrom rTo pids acc) := by
  intro pids
  induction pids with
  | nil => intro acc h; exact h
  | cons pid rest ih =>
    intro acc h
    rw [remapLoop_cons]
    apply ih
    split
    · exact accValid_setSlot h _ _ ht
    · exact h

theorem remapLoop_slotsOne (i crackIdx nid rFrom rTo : Nat) (hidx : crackIdx ≠ i) :
    ∀ (pids : List Nat) (acc : FieldAcc), SlotsOne i acc →
      SlotsOne i (remapLoop crackIdx nid rFrom rTo pids acc) := by
  intro pids
  induction pids with
  | nil => intro acc h; exact h
  | cons pid rest ih =>
    intro acc h
    rw [remapLoop_cons]
    apply ih
    split
    · exact slotsOne_setSlot_ne h _ _ hidx
    · exact h

theorem mem_insertLe {β : Type} (le : β → β → Bool) (x a : β) :
    ∀ l : List β, a ∈ insertLe le x l ↔ a = x ∨ a ∈ l := by
  intro l
  induction l with
  | nil => simp [insertLe]
  | cons y ys ih =>
    simp only [insertLe]
    split
    · simp [List.mem_cons]
    · simp only [List.mem_cons, ih]
      tauto

theorem mem_sortByLe {β : Type} (le : β → β → Bool) (a : β) :
    ∀ l : List β, a ∈ sortByLe le l ↔ a ∈ l := by
  intro l
  induction l with
  | nil => simp [sortByLe]
  | cons x xs ih =>
    simp only [sortByLe, mem_insertLe, ih, List.mem_cons]

theorem mem_sortedFieldsOf (acc : FieldAcc) (crackIdx nid : Nat) (pids : List Nat) (x : Nat) :
    x ∈ sortedFieldsOf acc crackIdx nid pids ↔
      ∃ pid ∈ pids, slotOf acc crackIdx (nid, pid) = x := by
  unfold sortedFieldsOf
  rw [mem_sortByLe, List.mem_dedup, List.mem_map]

theorem dedup_const (a : Nat) : ∀ l : List Nat, l ≠ [] → (∀ x ∈ l, x = a) →
    l.dedup = [a] := by
  intro l
  induction l with
  | nil => intro h _; exact absurd rfl h
  | cons x xs ih =>
    intro _ hall
    have hx : x = a := hall x (List.mem_cons_self x xs)
    subst hx
    cases xs with
    | nil => simp
    | cons y ys =>
      have hrest := ih (by simp) (fun z hz => hall z (List.mem_cons_of_mem _ hz))
      have hy : y = x := hall y (by simp)
      have hx2 : x ∈ y :: ys := by rw [hy]; exact List.mem_cons_self x ys
      rw [List.dedup_cons_of_mem hx2, hrest]

theorem sortedFieldsOf_const_one (acc : FieldAcc) (crackIdx nid : Nat) (pids : List Nat)
    (hne : pids ≠ []) (hall : ∀ pid ∈ pids, slotOf acc crackIdx (nid, pid) = 1) :
    sortedFieldsOf acc crackIdx nid pids = [1] := by
  unfold sortedFieldsOf
  have hd : (pids.map (fun pid => slotOf acc crackIdx (nid, pid))).dedup = [1] := by
    apply dedup_const
    · simpa using hne
    · intro x hx
      obtain ⟨pid, hpid, hv⟩ := List.mem_map.mp hx
      exact hv ▸ hall pid hpid
  rw [hd]
  rfl

theorem sortedFieldsOf_nil (acc : FieldAcc) (crackIdx nid : Nat) :
    sortedFieldsOf acc crackIdx nid [] = [] := rfl

/-! ## Path equations for the per-node consistency pass -/

theorem consistencyNode_eq_nil (crackIdx : Nat) (n : Node α) (g : GenState α) :
    consistencyNode crackIdx [] n g = g := rfl

theorem consistencyNode_eq_plain (crackIdx : Nat) (pids : List Nat) (n : Node α)
    (g : GenState α) (hp : ¬pids.length = 0)
    (h3 : ¬(sortedFieldsOf g.acc crackIdx n.id pids).length = 3)
    (h2 : ¬(sortedFieldsOf g.acc crackIdx n.id pids).length = 2) :
    consistencyNode crackIdx pids n g =
      pushStep g (seesStep n.id (sortedFieldsOf g.acc crackIdx n.id pids)
        (computeCombinedField g.acc)) := by
  unfold consistencyNode
  rw [if_neg hp]
  simp only [if_neg h3, if_neg h2]

theorem consistencyNode_eq_warn (crackIdx : Nat) (pids : List Nat) (n : Node α)
    (g : GenState α) (hp : ¬pids.length = 0)
    (h3 : (sortedFieldsOf g.acc crackIdx n.id pids).length = 3) :
    consistencyNode crackIdx pids n g =
      pushStep (pushStep g (seesStep n.id (sortedFieldsOf g.acc crackIdx n.id pids)
          (computeCombinedField g.acc)))
        (warnStep n.id (sortedFieldsOf g.acc crackIdx n.id pids)
          (computeCombinedField g.acc)) := by
  have h2 : ¬(sortedFieldsOf g.acc crackIdx n.id pids).length = 2 := by omega
  unfold consistencyNode
  rw [if_neg hp]
  simp only [if_pos h3, if_neg h2]
  rfl

theorem consistencyNode_eq_remap12 (crackIdx : Nat) (pids : List Nat) (n : Node α)
    (g : GenState α) (hp : ¬pids.length = 0)
    (hm1 : 1 ∈ sortedFieldsOf g.acc crackIdx n.id pids)
    (hm2 : 2 ∈ sortedFieldsOf g.acc crackIdx n.id pids)
    (h2 : (sortedFieldsOf g.acc crackIdx n.id pids).length = 2) :
    consistencyNode crackIdx pids n g =
      pushStep { pushStep g (seesStep n.id (sortedFieldsOf g.acc crackIdx n.id pids)
            (computeCombinedField g.acc)) with
          acc := remapLoop crackIdx n.id 1 3 pids g.acc }
        (normStep n.id (sortedFieldsOf g.acc crackIdx n.id pids) (1, 3)
          (computeCombinedField (remapLoop crackIdx n.id 1 3 pids g.acc))) := by
  have h3 : ¬(sortedFieldsOf g.acc crackIdx n.id pids).length = 3 := by omega
  unfold consistencyNode
  rw [if_neg hp]
  simp only [if_neg h3, if_pos h2, if_pos (⟨hm1, hm2⟩ :
    1 ∈ sortedFieldsOf g.acc crackIdx n.id pids ∧
    2 ∈ sortedFieldsOf g.acc crackIdx n.id pids)]
  rfl

theorem consistencyNode_eq_remap13 (crackIdx : Nat) (pids : List Nat) (n : Node α)
    (g : GenState α) (hp : ¬pids.length = 0)
    (hn12 : ¬(1 ∈ sortedFieldsOf g.acc crackIdx n.id pids ∧
      2 ∈ sortedFieldsOf g.acc crackIdx n.id pids))
    (hm1 : 1 ∈ sortedFieldsOf g.acc crackIdx n.id pids)
    (hm3 : 3 ∈ sortedFieldsOf g.acc crackIdx n.id pids)
    (h2 : (sortedFieldsOf g.acc crackIdx n.id pids).length = 2) :
    consistencyNode crackIdx pids n g =
      pushStep { pushStep g (seesStep n.id (sortedFieldsOf g.acc crackIdx n.id pids)
            (computeCombinedField g.acc)) with
          acc := remapLoop crackIdx n.id 1 2 pids g.acc }
        (normStep n.id (sortedFieldsOf g.acc crackIdx n.id pids) (1, 2)
          (computeCombinedField (remapLoop crackIdx n.id 1 2 pids g.acc))) := by
  have h3 : ¬(sortedFieldsOf g.acc crackIdx n.id pids).length = 3 := by omega
  unfold consistencyNode
  rw [if_neg hp]
  simp only [if_neg h3, if_pos h2, if_neg hn12, if_pos (⟨hm1, hm3⟩ :
    1 ∈ sortedFieldsOf g.acc crackIdx n.id pids ∧
    3 ∈ sortedFieldsOf g.acc crackIdx n.id pids)]
  rfl

theorem consistencyNode_eq_noremap (crackIdx : Nat) (pids : List Nat) (n : Node α)
    (g : GenState α) (hp : ¬pids.length = 0)
    (hn12 : ¬(1 ∈ sortedFieldsOf g.acc crackIdx n.id pids ∧
      2 ∈ sortedFieldsOf g.acc crackIdx n.id pids))
    (hn13 : ¬(1 ∈ sortedFieldsOf g.acc crackIdx n.id pids ∧
      3 ∈ sortedFieldsOf g.acc crackIdx n.id pids))
    (h2 : (sortedFieldsOf g.acc crackIdx n.id pids).length = 2) :
    consistencyNode crackIdx pids n g =
      pushStep g (seesStep n.id (sortedFieldsOf g.acc crackIdx n.id pids)
        (computeCombinedField g.acc)) := by
  have h3 : ¬(sortedFieldsOf g.acc crackIdx n.id pids).length = 3 := by omega
  unfold consistencyNode
  rw [if_neg hp]
  simp only [if_neg h3, if_pos h2, if_neg hn12, if_neg hn13]

/-- C3: at a node whose seen label set for the current crack is exactly
{1,2}, normalization remaps every label-1 pair of the node to 3 and leaves
label-2 pairs unchanged; for {1,3} it remaps label-1 pairs to 2 and leaves
label-3 pairs unchanged; for {2,3} the accumulator is unchanged. -/
theorem consistency_remap_spec (crackIdx : Nat) (pids : List Nat) (n : Node α)
    (g : GenState α) :
    (sortedFieldsOf g.acc crackIdx n.id pids = [1, 2] →
      ∀ pid ∈ pids,
        slotOf (consistencyNode crackIdx pids n g).acc crackIdx (n.id, pid) =
          if slotOf g.acc crackIdx (n.id, pid) = 1 then 3
          else slotOf g.acc crackIdx (n.id, pid)) ∧
    (sortedFieldsOf g.acc crackIdx n.id pids = [1, 3] →
      ∀ pid ∈ pids,
        slotOf (consistencyNode crackIdx pids n g).acc crackIdx (n.id, pid) =
          if slotOf g.acc crackIdx (n.id, pid) = 1 then 2
          else slotOf g.acc crackIdx (n.id, pid)) ∧
    (sortedFieldsOf g.acc crackIdx n.id pids = [2, 3] →
      (consistencyNode crackIdx pids n g).acc = g.acc) := by
  refine ⟨?_, ?_, ?_⟩
  · intro hsf pid hpid
    have hp : ¬pids.length = 0 := by
      intro h0
      rw [List.length_eq_zero] at h0
      subst h0
      rw [sortedFieldsOf_nil] at hsf
      simp at hsf
    have hm1 : 1 ∈ sortedFieldsOf g.acc crackIdx n.id pids := by rw [hsf]; simp
    have hm2 : 2 ∈ sortedFieldsOf g.acc crackIdx n.id pids := by rw [hsf]; simp
    have h2 : (sortedFieldsOf g.acc crackIdx n.id pids).length = 2 := by rw [hsf]; rfl
    rw [consistencyNode_eq_remap12 crackIdx pids n g hp hm1 hm2 h2]
    show slotOf (remapLoop crackIdx n.id 1 3 pids g.acc) crackIdx (n.id, pid) = _
    rw [remapLoop_slot crackIdx n.id 1 3 (by omega) (by omega) pids g.acc (n.id, pid)]
    by_cases hs : slotOf g.acc crackIdx (n.id, pid) = 1
    · rw [if_pos ⟨rfl, hpid, hs⟩, if_pos hs]
    · rw [if_neg (fun hc => hs hc.2.2), if_neg hs]
  · intro hsf pid hpid
    have hp : ¬pids.length = 0 := by
      intro h0
      rw [List.length_eq_zero] at h0
      subst h0
      rw [sortedFieldsOf_nil] at hsf
      simp at hsf
    have hn12 : ¬(1 ∈ sortedFieldsOf g.acc crackIdx n.id pids ∧
        2 ∈ sortedFieldsOf g.acc crackIdx n.id pids) := by
      rw [hsf]; simp
    have hm1 : 1 ∈ sortedFieldsOf g.acc crackIdx n.id pids := by rw [hsf]; simp
    have hm3 : 3 ∈ sortedFieldsOf g.acc crackIdx n.id pids := by rw [hsf]; simp
    have h2 : (sortedFieldsOf g.acc crackIdx n.id pids).length = 2 := by rw [hsf]; rfl
    rw [consistencyNode_eq_remap13 crackIdx pids n g hp hn12 hm1 hm3 h2]
    show slotOf (remapLoop crackIdx n.id 1 2 pids g.acc) crackIdx (n.id, pid) = _
    rw [remapLoop_slot crackIdx n.id 1 2 (by omega) (by omega) pids g.acc (n.id, pid)]
    by_cases hs : slotOf g.acc crackIdx (n.id, pid) = 1
    · rw [if_pos ⟨rfl, hpid, hs⟩, if_pos hs]
    · rw [if_neg (fun hc => hs hc.2.2), if_neg hs]
  · intro hsf
    have hp : ¬pids.length = 0 := by
      intro h0
      rw [List.length_eq_zero] at h0
      subst h0
      rw [sortedFieldsOf_nil] at hsf
      simp at hsf
    have hn12 : ¬(1 ∈ sortedFieldsOf g.acc crackIdx n.id pids ∧
        2 ∈ sortedFieldsOf g.acc crackIdx n.id pids) := by
      rw [hsf]; simp
    have hn13 : ¬(1 ∈ sortedFieldsOf g.acc crackIdx n.id pids ∧
        3 ∈ sortedFieldsOf g.acc crackIdx n.id pids) := by
      rw [hsf]; simp
    have h2 : (sortedFieldsOf g.acc crackIdx n.id pids).length = 2 := by rw [hsf]; rfl
    rw [consistencyNode_eq_noremap crackIdx pids n g hp hn12 hn13 h2]
    rfl

/-- C3 witness: a node over two pairs with labels 1 and 2; the label-1
pair is remapped to 3, the label-2 pair is unchanged. -/
theorem consistency_remap_spec_witness :
    sortedFieldsOf [((0, 0), [1]), ((0, 1), [2])] 0 0 [0, 1] = [1, 2] ∧
    slotOf (consistencyNode (α := ℤ) 0 [0, 1] ⟨0, 0, 0⟩
      { steps := [], counter := 0, acc := [((0, 0), [1]), ((0, 1), [2])] }).acc 0 (0, 0) = 3 ∧
    slotOf (consistencyNode (α := ℤ) 0 [0, 1] ⟨0, 0, 0⟩
      { steps := [], counter := 0, acc := [((0, 0), [1]), ((0, 1), [2])] }).acc 0 (0, 1) = 2 := by
  have h1 := (consistency_remap_spec (α := ℤ) 0 [0, 1] ⟨0, 0, 0⟩
    { steps := [], counter := 0, acc := [((0, 0), [1]), ((0, 1), [2])] }).1
    (by decide) 0 (by decide)
  have h2 := (consistency_remap_spec (α := ℤ) 0 [0, 1] ⟨0, 0, 0⟩
    { steps := [], counter := 0, acc := [((0, 0), [1]), ((0, 1), [2])] }).1
    (by decide) 1 (by decide)
  refine ⟨by decide, ?_, ?_⟩
  · rw [h1]; decide
  · rw [h2]; decide

/-- C4: at a node whose seen label set for the current crack is exactly
{1,2,3}, the consistency pass leaves the accumulator untouched and emits
exactly the seen-fields report and one warning step for that node. -/
theorem threeway_warning_spec (crackIdx : Nat) (pids : List Nat) (n : Node α)
    (g : GenState α) (hsf : sortedFieldsOf g.acc crackIdx n.id pids = [1, 2, 3]) :
    (consistencyNode crackIdx pids n g).acc = g.acc ∧
    (consistencyNode crackIdx pids n g).steps =
      g.steps ++ [seesStep n.id [1, 2, 3] (computeCombinedField g.acc) g.counter,
        warnStep n.id [1, 2, 3] (computeCombinedField g.acc) (g.counter + 1)] ∧
    (consistencyNode crackIdx pids n g).steps.countP (fun s : Step α => s.isWarning) =
      g.steps.countP (fun s : Step α => s.isWarning) + 1 := by
  have hp : ¬pids.length = 0 := by
    intro h0
    rw [List.length_eq_zero] at h0
    subst h0
    rw [sortedFieldsOf_nil] at hsf
    simp at hsf
  have h3 : (sortedFieldsOf g.acc crackIdx n.id pids).length = 3 := by rw [hsf]; rfl
  rw [consistencyNode_eq_warn crackIdx pids n g hp h3, hsf]
  refine ⟨rfl, ?_, ?_⟩
  · show (g.steps ++ [seesStep n.id [1, 2, 3] (computeCombinedField g.acc) g.counter])
        ++ [warnStep n.id [1, 2, 3] (computeCombinedField g.acc) (g.counter + 1)] = _
    rw [List.append_assoc]
    rfl
  · show ((g.steps ++ [seesStep n.id [1, 2, 3] (computeCombinedField g.acc) g.counter])
        ++ [warnStep n.id [1, 2, 3] (computeCombinedField g.acc) (g.counter + 1)]).countP
        (fun s : Step α => s.isWarning) = _
    rw [List.countP_append, List.countP_append]
    simp [Step.isWarning, seesStep, warnStep, List.countP_cons]

/-- C4 witness: a node over three pairs with labels 1, 2, 3; the pass
leaves the accumulator unchanged and emits one warning. -/
theorem threeway_warning_spec_witness :
    sortedFieldsOf [((0, 0), [1]), ((0, 1), [2]), ((0, 2), [3])] 0 0 [0, 1, 2] = [1, 2, 3] ∧
    (consistencyNode (α := ℤ) 0 [0, 1, 2] ⟨0, 0, 0⟩
      { steps := [], counter := 0,
        acc := [((0, 0), [1]), ((0, 1), [2]), ((0, 2), [3])] }).acc =
      [((0, 0), [1]), ((0, 1), [2]), ((0, 2), [3])] ∧
    (consistencyNode (α := ℤ) 0 [0, 1, 2] ⟨0, 0, 0⟩
      { steps := [], counter := 0,
        acc := [((0, 0), [1]), ((0, 1), [2]), ((0, 2), [3])] }).steps.countP
      (fun s => s.isWarning) = 1 := by
  have h := threeway_warning_spec (α := ℤ) 0 [0, 1, 2] ⟨0, 0, 0⟩
    { steps := [], counter := 0, acc := [((0, 0), [1]), ((0, 1), [2]), ((0, 2), [3])] }
    (by decide)
  exact ⟨by decide, h.1, h.2.2⟩

/-! ## Generic invariant machinery over the generator state -/

theorem pushStep_steps_mem (g : GenState α) (mk : Nat → Step α) (s : Step α) :
    s ∈ (pushStep g mk).steps ↔ s ∈ g.steps ∨ s = mk g.counter := by
  simp [pushStep]

theorem advances_comp (P : FieldAcc → Prop) (Q : Step α → Prop)
    (F G : GenState α → GenState α)
    (hF : Advances P Q F) (hG : Advances P Q G) : Advances P Q (fun g => G (F g)) := by
  intro g hg
  have h1 := hF g hg
  have h2 := hG (F g) h1.1
  refine ⟨h2.1, fun s hs => ?_⟩
  rcases h2.2 s hs with h3 | h3
  · exact h1.2 s h3
  · exact Or.inr h3

theorem advances_foldl {β : Type} (P : FieldAcc → Prop) (Q : Step α → Prop)
    (f : GenState α → β → GenState α) (l : List β)
    (h : ∀ b ∈ l, Advances P Q (fun g => f g b)) :
    Advances P Q (fun g => l.foldl f g) := by
  induction l with
  | nil => intro g hg; exact ⟨hg, fun s hs => Or.inl hs⟩
  | cons b rest ih =>
    intro g hg
    have h1 := h b (List.mem_cons_self b rest) g hg
    have h2 := ih (fun x hx => h x (List.mem_cons_of_mem _ hx)) (f g b) h1.1
    refine ⟨h2.1, fun s hs => ?_⟩
    rcases h2.2 s hs with h3 | h3
    · exact h1.2 s h3
    · exact Or.inr h3

theorem advances_pushStep (P : FieldAcc → Prop) (Q : Step α → Prop)
    (mkOf : GenState α → Nat → Step α)
    (hmk : ∀ g : GenState α, P g.acc → Q (mkOf g g.counter) ∧
      (mkOf g g.counter).currentFieldState = computeCombinedField g.acc) :
    Advances P Q (fun g => pushStep g (mkOf g)) := by
  intro g hg
  refine ⟨hg, fun s hs => ?_⟩
  rcases (pushStep_steps_mem g (mkOf g) s).mp hs with h | h
  · exact Or.inl h
  · subst h
    exact Or.inr ⟨(hmk g hg).1, g.acc, hg, (hmk g hg).2⟩

theorem segmentLoop_advances (P : FieldAcc → Prop) (Q : Step α → Prop)
    (pPos nPos : Point α) (nid pid cid : Nat)
    (segs : List (Point α × Point α)) (i f2 f3 : Nat)
    (hQ : ∀ s : Step α, (∃ j, s.description = StepDesc.checking nid pid j) →
      s.highlightCrackId = some cid → Q s) :
    Advances P Q (fun g => (segmentLoop pPos nPos nid pid cid segs i f2 f3 g).1) := by
  intro g hg
  constructor
  · rw [segmentLoop_acc]
    exact hg
  · intro s hs
    obtain ⟨new, hsteps, hprops⟩ := segmentLoop_steps pPos nPos nid pid cid segs i f2 f3 g
    rw [hsteps] at hs
    rcases List.mem_append.mp hs with h | h
    · exact Or.inl h
    · obtain ⟨hdesc, hcid, hsnap⟩ := hprops s h
      exact Or.inr ⟨hQ s hdesc hcid, g.acc, hg, hsnap⟩

/-! ## Characterization of processPair -/

theorem processPair_steps (nodes : List (Node α)) (crack : Crack α) (crackIdx : Nat)
    (p : Particle α) (nid : Nat) (g : GenState α) (n : Node α)
    (h : nodes.find? (fun node => decide (node.id = nid)) = some n) :
    ∃ new, (processPair nodes crack crackIdx p nid g).steps = g.steps ++ new ∧
      ∀ s ∈ new,
        ((∃ j, s.description = StepDesc.checking n.id p.id j) ∧
            s.currentFieldState = computeCombinedField g.acc ∨
          (∃ f, s.description = StepDesc.resultPair n.id p.id f) ∧
            s.currentFieldState = computeCombinedField
              (setSlot g.acc (n.id, p.id) crackIdx
                (finalFieldOf (countSegments p.pos n.pos crack.segments).1
                  (countSegments p.pos n.pos crack.segments).2))) ∧
        s.highlightCrackId = some crack.id := by
  have hacc := segmentLoop_acc p.pos n.pos n.id p.id crack.id crack.segments 0 0 0 g
  have hcnt := segmentLoop_counts p.pos n.pos n.id p.id crack.id crack.segments 0 0 0 g
  obtain ⟨new1, hsteps1, hprops1⟩ :=
    segmentLoop_steps p.pos n.pos n.id p.id crack.id crack.segments 0 0 0 g
  unfold processPair
  rw [h]
  dsimp only
  split
  · refine ⟨new1 ++ [resultStep n.id p.id crack.id
        (finalFieldOf (segmentLoop p.pos n.pos n.id p.id crack.id crack.segments 0 0 0 g).2.1
          (segmentLoop p.pos n.pos n.id p.id crack.id crack.segments 0 0 0 g).2.2)
        (computeCombinedField (setSlot
          (segmentLoop p.pos n.pos n.id p.id crack.id crack.segments 0 0 0 g).1.acc
          (n.id, p.id) crackIdx
          (finalFieldOf (segmentLoop p.pos n.pos n.id p.id crack.id crack.segments 0 0 0 g).2.1
            (segmentLoop p.pos n.pos n.id p.id crack.id crack.segments 0 0 0 g).2.2)))
        (segmentLoop p.pos n.pos n.id p.id crack.id crack.segments 0 0 0 g).1.counter],
      ?_, ?_⟩
    · show (segmentLoop p.pos n.pos n.id p.id crack.id crack.segments 0 0 0 g).1.steps
          ++ [_] = _
      rw [hsteps1, List.append_assoc]
    · intro s hs
      rcases List.mem_append.mp hs with h1 | h1
      · obtain ⟨hdesc, hcid, hsnap⟩ := hprops1 s h1
        exact ⟨Or.inl ⟨hdesc, hsnap⟩, hcid⟩
      · rw [List.mem_singleton] at h1
        subst h1
        rw [hacc, hcnt]
        refine ⟨Or.inr ⟨⟨_, rfl⟩, ?_⟩, rfl⟩
        simp [resultStep]
  · refine ⟨new1, ?_, ?_⟩
    · show (segmentLoop p.pos n.pos n.id p.id crack.id crack.segments 0 0 0 g).1.steps = _
      exact hsteps1
    · intro s hs
      obtain ⟨hdesc, hcid, hsnap⟩ := hprops1 s hs
      exact ⟨Or.inl ⟨hdesc, hsnap⟩, hcid⟩

theorem processPair_no_change (nodes : List (Node α)) (crack : Crack α) (crackIdx : Nat)
    (p : Particle α) (nid : Nat) (g : GenState α) (n : Node α)
    (h : nodes.find? (fun node => decide (node.id = nid)) = some n)
    (hsegs : crack.segments = [])
    (hslot : slotOf g.acc crackIdx (n.id, p.id) = 1) :
    processPair nodes crack crackIdx p nid g =
      { g with acc := setSlot g.acc (n.id, p.id) crackIdx 1 } := by
  unfold processPair
  rw [h]
  dsimp only
  rw [hsegs]
  rw [if_neg]
  · rfl
  · show ¬(slotOf (segmentLoop p.pos n.pos n.id p.id crack.id [] 0 0 0 g).1.acc crackIdx
        (n.id, p.id) ≠ finalFieldOf 0 0 ∨ finalFieldOf 0 0 ≠ 1)
    have hff : finalFieldOf 0 0 = 1 := rfl
    have hsl : (segmentLoop p.pos n.pos n.id p.id crack.id
        (List.nil (α := Point α × Point α)) 0 0 0 g).1.acc = g.acc := rfl
    rw [hff]
    simp [hsl, hslot]

/-! ## The label-range invariant (C9) -/

theorem finalFieldOf_labelOk (f2 f3 : Nat) : LabelOk (finalFieldOf f2 f3) := by
  unfold LabelOk
  simp only [finalFieldOf]
  split_ifs <;> simp

theorem processPair_advances_accValid (nodes : List (Node α)) (crack : Crack α)
    (crackIdx : Nat) (p : Particle α) (nid : Nat) :
    Advances AccValid (fun _ : Step α => True)
      (fun g => processPair nodes crack crackIdx p nid g) := by
  intro g hg
  dsimp only
  cases hf : nodes.find? (fun node => decide (node.id = nid)) with
  | none =>
    rw [processPair_none nodes crack crackIdx p nid g hf]
    exact ⟨hg, fun s hs => Or.inl hs⟩
  | some n =>
    have hacc := processPair_acc nodes crack crackIdx p nid g n hf
    obtain ⟨new, hsteps, hprops⟩ := processPair_steps nodes crack crackIdx p nid g n hf
    have hvalid2 : AccValid (setSlot g.acc (n.id, p.id) crackIdx
        (finalFieldOf (countSegments p.pos n.pos crack.segments).1
          (countSegments p.pos n.pos crack.segments).2)) :=
      accValid_setSlot hg _ _ (finalFieldOf_labelOk _ _)
    refine ⟨hacc ▸ hvalid2, fun s hs => ?_⟩
    rw [hsteps] at hs
    rcases List.mem_append.mp hs with h | h
    · exact Or.inl h
    · obtain ⟨hd, _⟩ := hprops s h
      rcases hd with ⟨_, hsnap⟩ | ⟨_, hsnap⟩
      · exact Or.inr ⟨trivial, g.acc, hg, hsnap⟩
      · exact Or.inr ⟨trivial, _, hvalid2, hsnap⟩

theorem crossingPhase_advances_accValid (nodes : List (Node α))
    (particles : List (Particle α)) (crack : Crack α) (crackIdx : Nat) :
    Advances AccValid (fun _ : Step α => True)
      (fun g => crossingPhase nodes particles crack crackIdx g) := by
  apply advances_foldl
  intro p _
  apply advances_foldl
  intro nid _
  exact processPair_advances_accValid nodes crack crackIdx p nid

theorem consistencyNode_advances_accValid (crackIdx : Nat) (pids : List Nat) (n : Node α) :
    Advances AccValid (fun _ : Step α => True)
      (fun g => consistencyNode crackIdx pids n g) := by
  intro g hg
  dsimp only
  by_cases hp0 : pids.length = 0
  · rw [List.length_eq_zero] at hp0
    subst hp0
    rw [consistencyNode_eq_nil]
    exact ⟨hg, fun s hs => Or.inl hs⟩
  · have hp : ¬pids.length = 0 := hp0
    by_cases h3 : (sortedFieldsOf g.acc crackIdx n.id pids).length = 3
    · rw [consistencyNode_eq_warn crackIdx pids n g hp h3]
      refine ⟨hg, fun s hs => ?_⟩
      rcases (pushStep_steps_mem _ _ s).mp hs with h | h
      · rcases (pushStep_steps_mem _ _ s).mp h with h1 | h1
        · exact Or.inl h1
        · subst h1
          exact Or.inr ⟨trivial, g.acc, hg, rfl⟩
      · subst h
        exact Or.inr ⟨trivial, g.acc, hg, rfl⟩
    · by_cases h2 : (sortedFieldsOf g.acc crackIdx n.id pids).length = 2
      · by_cases h12 : 1 ∈ sortedFieldsOf g.acc crackIdx n.id pids ∧
            2 ∈ sortedFieldsOf g.acc crackIdx n.id pids
        · rw [consistencyNode_eq_remap12 crackIdx pids n g hp h12.1 h12.2 h2]
          have hvr : AccValid (remapLoop crackIdx n.id 1 3 pids g.acc) :=
            remapLoop_accValid crackIdx n.id 1 3 (by simp [LabelOk]) pids g.acc hg
          refine ⟨hvr, fun s hs => ?_⟩
          rcases (pushStep_steps_mem _ _ s).mp hs with h | h
          · rcases (pushStep_steps_mem _ _ s).mp h with h1 | h1
            · exact Or.inl h1
            · subst h1
              exact Or.inr ⟨trivial, g.acc, hg, rfl⟩
          · subst h
            exact Or.inr ⟨trivial, _, hvr, rfl⟩
        · by_cases h13 : 1 ∈ sortedFieldsOf g.acc crackIdx n.id pids ∧
              3 ∈ sortedFieldsOf g.acc crackIdx n.id pids
          · rw [consistencyNode_eq_remap13 crackIdx pids n g hp h12 h13.1 h13.2 h2]
            have hvr : AccValid (remapLoop crackIdx n.id 1 2 pids g.acc) :=
              remapLoop_accValid crackIdx n.id 1 2 (by simp [LabelOk]) pids g.acc hg
            refine ⟨hvr, fun s hs => ?_⟩
            rcases (pushStep_steps_mem _ _ s).mp hs with h | h
            · rcases (pushStep_steps_mem _ _ s).mp h with h1 | h1
              · exact Or.inl h1
              · subst h1
                exact Or.inr ⟨trivial, g.acc, hg, rfl⟩
            · subst h
              exact Or.inr ⟨trivial, _, hvr, rfl⟩
          · rw [consistencyNode_eq_noremap crackIdx pids n g hp h12 h13 h2]
            refine ⟨hg, fun s hs => ?_⟩
            rcases (pushStep_steps_mem _ _ s).mp hs with h | h
            · exact Or.inl h
            · subst h
              exact Or.inr ⟨trivial, g.acc, hg, rfl⟩
      · rw [consistencyNode_eq_plain crackIdx pids n g hp h3 h2]
        refine ⟨hg, fun s hs => ?_⟩
        rcases (pushStep_steps_mem _ _ s).mp hs with h | h
        · exact Or.inl h
        · subst h
          exact Or.inr ⟨trivial, g.acc, hg, rfl⟩

theorem processCrack_advances_accValid (nodes : List (Node α))
    (particles : List (Particle α)) (crack : Crack α) (crackIdx : Nat) :
    Advances AccValid (fun _ : Step α => True)
      (fun g => processCrack nodes particles crack crackIdx g) := by
  have h1 : Advances AccValid (fun _ : Step α => True)
      (fun g : GenState α => pushStep g (crackStartStep crack.id (computeCombinedField g.acc))) :=
    advances_pushStep _ _ _ (fun g hg => ⟨trivial, rfl⟩)
  have h2 := crossingPhase_advances_accValid nodes particles crack crackIdx
  have h3 : Advances AccValid (fun _ : Step α => True)
      (fun g : GenState α => pushStep g (phaseStep crack.id (computeCombinedField g.acc))) :=
    advances_pushStep _ _ _ (fun g hg => ⟨trivial, rfl⟩)
  have h4 : Advances AccValid (fun _ : Step α => True)
      (fun g : GenState α => nodes.foldl (fun g n =>
        consistencyNode crackIdx (nodeToParticles nodes particles n.id) n g) g) := by
    apply advances_foldl
    intro n _
    exact consistencyNode_advances_accValid crackIdx (nodeToParticles nodes particles n.id) n
  exact advances_comp AccValid (fun _ : Step α => True)
    (fun g : GenState α => pushStep
      (crossingPhase nodes particles crack crackIdx
        (pushStep g (crackStartStep crack.id (computeCombinedField g.acc))))
      (phaseStep crack.id (computeCombinedField
        (crossingPhase nodes particles crack crackIdx
          (pushStep g (crackStartStep crack.id (computeCombinedField g.acc)))).acc)))
    (fun g : GenState α => nodes.foldl (fun g n =>
      consistencyNode crackIdx (nodeToParticles nodes particles n.id) n g) g)
    (advances_comp AccValid (fun _ : Step α => True)
      (fun g : GenState α => crossingPhase nodes particles crack crackIdx
        (pushStep g (crackStartStep crack.id (computeCombinedField g.acc))))
      (fun g : GenState α => pushStep g (phaseStep crack.id (computeCombinedField g.acc)))
      (advances_comp AccValid (fun _ : Step α => True)
        (fun g : GenState α => pushStep g (crackStartStep crack.id (computeCombinedField g.acc)))
        (fun g : GenState α => crossingPhase nodes particles crack crackIdx g)
        h1 h2)
      h3)
    h4

theorem generateAux_invariant (P : FieldAcc → Prop) (Q : Step α → Prop)
    (nodes : List (Node α)) (particles : List (Particle α)) (cracks : List (Crack α))
    (hinit : P (initAcc nodes particles cracks))
    (hQi : ∀ (snap : List (PairKey × Nat)) (sid : Nat), Q (initStep snap sid))
    (hQc : ∀ (snap : List (PairKey × Nat)) (sid : Nat), Q (completeStep snap sid))
    (hcracks : ∀ ic ∈ cracks.enum,
      Advances P Q (fun g => processCrack nodes particles ic.2 ic.1 g)) :
    P (generateAux nodes particles cracks).acc ∧
    ∀ s ∈ (generateAux nodes particles cracks).steps, Q s ∧
      ∃ acc, P acc ∧ s.currentFieldState = computeCombinedField acc := by
  have h1 : Advances P Q
      (fun g : GenState α => pushStep g (initStep (computeCombinedField g.acc))) :=
    advances_pushStep _ _ _ (fun g hg => ⟨hQi _ _, rfl⟩)
  have h2 : Advances P Q (fun g : GenState α =>
      cracks.enum.foldl (fun g ic => processCrack nodes particles ic.2 ic.1 g) g) :=
    advances_foldl _ _ _ _ hcracks
  have h3 : Advances P Q
      (fun g : GenState α => pushStep g (completeStep (computeCombinedField g.acc))) :=
    advances_pushStep _ _ _ (fun g hg => ⟨hQc _ _, rfl⟩)
  have hall := advances_comp _ _ _ _ (advances_comp _ _ _ _ h1 h2) h3
    { steps := [], counter := 0, acc := initAcc nodes particles cracks } hinit
  refine ⟨hall.1, fun s hs => ?_⟩
  rcases hall.2 s hs with h | h
  · exact absurd h (List.not_mem_nil s)
  · exact ⟨h.1, h.2⟩

theorem initAcc_slots (nodes : List (Node α)) (particles : List (Particle α))
    (cracks : List (Crack α)) :
    ∀ e ∈ initAcc nodes particles cracks, ∀ v ∈ e.2, v = 1 := by
  intro e he v hv
  unfold initAcc at he
  obtain ⟨p, _, he2⟩ := List.mem_flatMap.mp he
  obtain ⟨nid, _, he3⟩ := List.mem_map.mp he2
  subst he3
  exact List.eq_of_mem_replicate hv

/-- C9: every accumulator slot holds a label in {1,2,3} at every point of
the computation (the initial accumulator, every step snapshot, and the
final accumulator), and before any crack is processed every slot holds 1. -/
theorem accumulator_range_spec (nodes : List (Node α)) (particles : List (Particle α))
    (cracks : List (Crack α)) :
    (∀ e ∈ initAcc nodes particles cracks, ∀ v ∈ e.2, v = 1) ∧
    AccValid (generateAux nodes particles cracks).acc ∧
    ∀ s ∈ generateSimulationSteps nodes particles cracks,
      ∃ acc, AccValid acc ∧ s.currentFieldState = computeCombinedField acc := by
  have hinit1 := initAcc_slots nodes particles cracks
  have hinit : AccValid (initAcc nodes particles cracks) :=
    fun e he v hv => Or.inl (hinit1 e he v hv)
  have hmain := generateAux_invariant AccValid (fun _ : Step α => True)
    nodes particles cracks hinit (fun _ _ => trivial) (fun _ _ => trivial)
    (fun ic _ => processCrack_advances_accValid nodes particles ic.2 ic.1)
  exact ⟨hinit1, hmain.1, fun s hs => (hmain.2 s hs).2⟩

/-! ## Degenerate inputs: empty nodes or particles (C7) -/

theorem foldl_congr_id {β : Type} (l : List β) (f : GenState α → β → GenState α)
    (h : ∀ (g : GenState α) (b : β), b ∈ l → f g b = g) :
    ∀ g : GenState α, l.foldl f g = g := by
  induction l with
  | nil => intro g; rfl
  | cons b rest ih =>
    intro g
    show rest.foldl f (f g b) = g
    rw [h g b (List.mem_cons_self b rest)]
    exact ih (fun g x hx => h g x (List.mem_cons_of_mem _ hx)) g

theorem crossingPhase_degenerate (nodes : List (Node α)) (particles : List (Particle α))
    (crack : Crack α) (crackIdx : Nat) (h : nodes = [] ∨ particles = [])
    (g : GenState α) : crossingPhase nodes particles crack crackIdx g = g := by
  rcases h with h | h
  · subst h
    unfold crossingPhase
    apply foldl_congr_id
    intro g p _
    rfl
  · subst h
    rfl

theorem consistencyFold_degenerate (nodes : List (Node α)) (particles : List (Particle α))
    (crackIdx : Nat) (h : nodes = [] ∨ particles = []) (g : GenState α) :
    nodes.foldl (fun g n =>
      consistencyNode crackIdx (nodeToParticles nodes particles n.id) n g) g = g := by
  rcases h with h | h
  · subst h
    rfl
  · subst h
    apply foldl_congr_id
    intro g n _
    rfl

theorem initAcc_degenerate (nodes : List (Node α)) (particles : List (Particle α))
    (cracks : List (Crack α)) (h : nodes = [] ∨ particles = []) :
    initAcc nodes particles cracks = [] := by
  rcases h with h | h
  · subst h
    unfold initAcc
    rw [List.flatMap_eq_nil_iff]
    intro p _
    rfl
  · subst h
    rfl

theorem processCrack_degenerate (nodes : List (Node α)) (particles : List (Particle α))
    (crack : Crack α) (crackIdx : Nat) (h : nodes = [] ∨ particles = [])
    (g : GenState α) (hacc : g.acc = []) :
    processCrack nodes particles crack crackIdx g =
      { steps := g.steps ++ [crackStartStep crack.id [] g.counter,
          phaseStep crack.id [] (g.counter + 1)]
        counter := g.counter + 2
        acc := [] } := by
  unfold processCrack
  dsimp only
  rw [crossingPhase_degenerate nodes particles crack crackIdx h]
  rw [consistencyFold_degenerate nodes particles crackIdx h]
  obtain ⟨gs, gc, ga⟩ := g
  simp only at hacc
  subst hacc
  simp [pushStep, computeCombinedField, List.append_assoc]

theorem crackFold_degenerate (nodes : List (Node α)) (particles : List (Particle α))
    (h : nodes = [] ∨ particles = []) :
    ∀ (l : List (Nat × Crack α)) (g : GenState α), g.acc = [] →
      l.foldl (fun g ic => processCrack nodes particles ic.2 ic.1 g) g =
        { steps := g.steps ++ markerSteps l g.counter
          counter := g.counter + 2 * l.length
          acc := [] } := by
  intro l
  induction l with
  | nil =>
    intro g hacc
    obtain ⟨gs, gc, ga⟩ := g
    simp only at hacc
    subst hacc
    simp [markerSteps]
  | cons ic rest ih =>
    intro g hacc
    show rest.foldl _ (processCrack nodes particles ic.2 ic.1 g) = _
    rw [processCrack_degenerate nodes particles ic.2 ic.1 h g hacc]
    rw [ih _ rfl]
    simp only [markerSteps, List.length_cons, GenState.mk.injEq]
    refine ⟨by simp, by omega, trivial⟩

theorem markerSteps_mem : ∀ (l : List (Nat × Crack α)) (k : Nat) (s : Step α),
    s ∈ markerSteps l k →
      (∃ cid, s.description = StepDesc.processingCrack cid ∨
        s.description = StepDesc.consistencyPhase cid) ∧
      s.consistencyNodeId = none ∧ ¬IsCheckingStep s ∧ ¬IsResultStep s := by
  intro l
  induction l with
  | nil => intro k s hs; simp [markerSteps] at hs
  | cons ic rest ih =>
    intro k s hs
    rcases List.mem_cons.mp hs with h | h
    · subst h
      refine ⟨⟨ic.2.id, Or.inl rfl⟩, rfl, ?_, ?_⟩
      · rintro ⟨a, b, j, hd⟩
        simp [crackStartStep] at hd
      · rintro ⟨a, b, f, hd⟩
        simp [crackStartStep] at hd
    · rcases List.mem_cons.mp h with h1 | h1
      · subst h1
        refine ⟨⟨ic.2.id, Or.inr rfl⟩, rfl, ?_, ?_⟩
        · rintro ⟨a, b, j, hd⟩
          simp [phaseStep] at hd
        · rintro ⟨a, b, f, hd⟩
          simp [phaseStep] at hd
      · exact ih (k + 2) s h1

/-- C7 counterexample: with empty nodes and particles but one crack, the
trace still contains the per-crack markers: four steps, not just the
initialization and completion steps. -/
theorem degenerate_trace_cex :
    ((generateSimulationSteps ([] : List (Node ℤ)) [] [⟨0, [⟨0, 0⟩, ⟨1, 1⟩]⟩]).map
      (fun s => s.description)) =
      [StepDesc.initialization, StepDesc.processingCrack 0, StepDesc.consistencyPhase 0,
        StepDesc.complete] ∧
    (generateSimulationSteps ([] : List (Node ℤ)) [] [⟨0, [⟨0, 0⟩, ⟨1, 1⟩]⟩]).length ≠ 2 := by
  constructor
  · rfl
  · decide

/-- C7 (amended): with empty nodes or empty particles the run succeeds and
the trace degenerates to the initialization step, two marker steps per
crack (crack-start and consistency-phase-start, with empty snapshots), and
the completion step; it contains no per-segment crossing steps, no result
steps and no per-node consistency steps. -/
theorem degenerate_trace_spec (nodes : List (Node α)) (particles : List (Particle α))
    (cracks : List (Crack α)) (h : nodes = [] ∨ particles = []) :
    generateSimulationSteps nodes particles cracks =
      initStep [] 0 ::
        (markerSteps cracks.enum 1 ++ [completeStep [] (1 + 2 * cracks.length)]) ∧
    ∀ s ∈ generateSimulationSteps nodes particles cracks,
      ¬IsCheckingStep s ∧ ¬IsResultStep s ∧ s.consistencyNodeId = none := by
  have hacc := initAcc_degenerate nodes particles cracks h
  have hshape : generateSimulationSteps nodes particles cracks =
      initStep [] 0 ::
        (markerSteps cracks.enum 1 ++ [completeStep [] (1 + 2 * cracks.length)]) := by
    unfold generateSimulationSteps generateAux
    dsimp only
    rw [hacc]
    rw [crackFold_degenerate nodes particles h cracks.enum
      (pushStep { steps := [], counter := 0, acc := [] }
        (initStep (computeCombinedField []))) rfl]
    simp [pushStep, computeCombinedField, List.enum_length, List.append_assoc]
  refine ⟨hshape, fun s hs => ?_⟩
  rw [hshape] at hs
  rcases List.mem_cons.mp hs with h1 | h1
  · subst h1
    refine ⟨?_, ?_, rfl⟩
    · rintro ⟨a, b, j, hd⟩
      simp [initStep] at hd
    · rintro ⟨a, b, f, hd⟩
      simp [initStep] at hd
  · rcases List.mem_append.mp h1 with h2 | h2
    · obtain ⟨_, hcn, hchk, hres⟩ := markerSteps_mem cracks.enum 1 s h2
      exact ⟨hchk, hres, hcn⟩
    · rw [List.mem_singleton] at h2
      subst h2
      refine ⟨?_, ?_, rfl⟩
      · rintro ⟨a, b, j, hd⟩
        simp [completeStep] at hd
      · rintro ⟨a, b, f, hd⟩
        simp [completeStep] at hd

/-- C7 witness: the amended trace shape evaluated at empty particles with
one node and one crack. -/
theorem degenerate_trace_spec_witness :
    generateSimulationSteps [(⟨0, 0, 0⟩ : Node ℤ)] [] [⟨0, [⟨0, 0⟩, ⟨1, 1⟩]⟩] =
      initStep [] 0 ::
        (markerSteps [(0, ⟨0, [⟨0, 0⟩, ⟨1, 1⟩]⟩)] 1 ++ [completeStep [] 3]) :=
  (degenerate_trace_spec [(⟨0, 0, 0⟩ : Node ℤ)] [] [⟨0, [⟨0, 0⟩, ⟨1, 1⟩]⟩] (Or.inr rfl)).1

/-! ## The short-crack invariant (C10, C5) -/

theorem segments_nil_of_short (c : Crack α) (h : c.points.length < 2) : c.segments = [] := by
  unfold Crack.segments
  match hc : c.points with
  | [] => rfl
  | [p] => rfl
  | p :: q :: t =>
    rw [hc] at h
    simp at h
    omega

theorem q10_of_marker (cid : Nat) (s : Step α)
    (h : ¬IsCheckingStep s ∧ ¬IsResultStep s) :
    (IsCheckingStep s ∨ IsResultStep s) → s.highlightCrackId ≠ some cid := by
  rintro (hc | hr)
  · exact absurd hc h.1
  · exact absurd hr h.2

theorem not_cr_of_description (s : Step α)
    (h : ∀ a b c : Nat, s.description ≠ StepDesc.checking a b c ∧
      s.description ≠ StepDesc.resultPair a b c) :
    ¬IsCheckingStep s ∧ ¬IsResultStep s := by
  constructor
  · rintro ⟨a, b, c, hd⟩
    exact (h a b c).1 hd
  · rintro ⟨a, b, c, hd⟩
    exact (h a b c).2 hd

theorem processPair_advances_other (nodes : List (Node α)) (particles : List (Particle α))
    (i cid : Nat) (crack : Crack α) (crackIdx : Nat) (p : Particle α) (nid : Nat)
    (hidx : crackIdx ≠ i) (hcid : crack.id ≠ cid) :
    Advances (fun acc => SlotsOne i acc ∧ KeysCover nodes particles acc)
      (fun s : Step α => (IsCheckingStep s ∨ IsResultStep s) →
        s.highlightCrackId ≠ some cid)
      (fun g => processPair nodes crack crackIdx p nid g) := by
  intro g hg
  dsimp only
  cases hf : nodes.find? (fun node => decide (node.id = nid)) with
  | none =>
    rw [processPair_none nodes crack crackIdx p nid g hf]
    exact ⟨hg, fun s hs => Or.inl hs⟩
  | some n =>
    have hacc := processPair_acc nodes crack crackIdx p nid g n hf
    obtain ⟨new, hsteps, hprops⟩ := processPair_steps nodes crack crackIdx p nid g n hf
    have hp2 : SlotsOne i (setSlot g.acc (n.id, p.id) crackIdx
          (finalFieldOf (countSegments p.pos n.pos crack.segments).1
            (countSegments p.pos n.pos crack.segments).2)) ∧
        KeysCover nodes particles (setSlot g.acc (n.id, p.id) crackIdx
          (finalFieldOf (countSegments p.pos n.pos crack.segments).1
            (countSegments p.pos n.pos crack.segments).2)) :=
      ⟨slotsOne_setSlot_ne hg.1 _ _ hidx, keysCover_setSlot hg.2 _ _ _⟩
    refine ⟨hacc ▸ hp2, fun s hs => ?_⟩
    rw [hsteps] at hs
    rcases List.mem_append.mp hs with h | h
    · exact Or.inl h
    · obtain ⟨hd, hcidstep⟩ := hprops s h
      have hq : (IsCheckingStep s ∨ IsResultStep s) → s.highlightCrackId ≠ some cid := by
        intro _
        rw [hcidstep]
        intro hc
        exact hcid (by simpa using hc)
      rcases hd with ⟨_, hsnap⟩ | ⟨_, hsnap⟩
      · exact Or.inr ⟨hq, g.acc, hg, hsnap⟩
      · exact Or.inr ⟨hq, _, hp2, hsnap⟩

theorem processPair_advances_self (nodes : List (Node α)) (particles : List (Particle α))
    (i cid : Nat) (crack : Crack α) (p : Particle α) (nid : Nat)
    (hp : p ∈ particles) (hnid : nid ∈ particleToNodes nodes p)
    (hsegs : crack.segments = []) :
    Advances (fun acc => SlotsOne i acc ∧ KeysCover nodes particles acc)
      (fun s : Step α => (IsCheckingStep s ∨ IsResultStep s) →
        s.highlightCrackId ≠ some cid)
      (fun g => processPair nodes crack i p nid g) := by
  intro g hg
  dsimp only
  cases hf : nodes.find? (fun node => decide (node.id = nid)) with
  | none =>
    rw [processPair_none nodes crack i p nid g hf]
    exact ⟨hg, fun s hs => Or.inl hs⟩
  | some n =>
    have hid : n.id = nid := by
      have := List.find?_some hf
      simpa using this
    have hkey : (n.id, p.id) ∈ keysOf g.acc := by
      rw [hid]
      exact hg.2 p hp nid hnid
    have hslot : slotOf g.acc i (n.id, p.id) = 1 := slotOf_of_slotsOne hg.1 hkey
    rw [processPair_no_change nodes crack i p nid g n hf hsegs hslot]
    refine ⟨⟨slotsOne_setSlot_one hg.1 _, keysCover_setSlot hg.2 _ _ _⟩,
      fun s hs => Or.inl hs⟩

theorem consistencyNode_advances_other (nodes : List (Node α))
    (particles : List (Particle α)) (i cid : Nat) (crackIdx : Nat) (pids : List Nat)
    (n : Node α) (hidx : crackIdx ≠ i) :
    Advances (fun acc => SlotsOne i acc ∧ KeysCover nodes particles acc)
      (fun s : Step α => (IsCheckingStep s ∨ IsResultStep s) →
        s.highlightCrackId ≠ some cid)
      (fun g => consistencyNode crackIdx pids n g) := by
  intro g hg
  dsimp only
  have hkr : ∀ rm1 rm2 : Nat, KeysCover nodes particles
      (remapLoop crackIdx n.id rm1 rm2 pids g.acc) := by
    intro rm1 rm2 q hq nid2 hnid2
    rw [remapLoop_keysOf]
    exact hg.2 q hq nid2 hnid2
  have hqsees : ∀ (sf : List Nat) (snap : List (PairKey × Nat)) (sid : Nat),
      (IsCheckingStep (seesStep n.id sf snap sid : Step α) ∨
        IsResultStep (seesStep n.id sf snap sid : Step α)) →
      (seesStep n.id sf snap sid : Step α).highlightCrackId ≠ some cid := by
    intro sf snap sid
    exact q10_of_marker cid _ (not_cr_of_description _
      (fun a b c => ⟨by simp [seesStep], by simp [seesStep]⟩))
  have hqwarn : ∀ (sf : List Nat) (snap : List (PairKey × Nat)) (sid : Nat),
      (IsCheckingStep (warnStep n.id sf snap sid : Step α) ∨
        IsResultStep (warnStep n.id sf snap sid : Step α)) →
      (warnStep n.id sf snap sid : Step α).highlightCrackId ≠ some cid := by
    intro sf snap sid
    exact q10_of_marker cid _ (not_cr_of_description _
      (fun a b c => ⟨by simp [warnStep], by simp [warnStep]⟩))
  have hqnorm : ∀ (sf : List Nat) (rm : Nat × Nat) (snap : List (PairKey × Nat)) (sid : Nat),
      (IsCheckingStep (normStep n.id sf rm snap sid : Step α) ∨
        IsResultStep (normStep n.id sf rm snap sid : Step α)) →
      (normStep n.id sf rm snap sid : Step α).highlightCrackId ≠ some cid := by
    intro sf rm snap sid
    exact q10_of_marker cid _ (not_cr_of_description _
      (fun a b c => ⟨by simp [normStep], by simp [normStep]⟩))
  by_cases hp0 : pids.length = 0
  · rw [List.length_eq_zero] at hp0
    subst hp0
    rw [consistencyNode_eq_nil]
    exact ⟨hg, fun s hs => Or.inl hs⟩
  · have hp : ¬pids.length = 0 := hp0
    by_cases h3 : (sortedFieldsOf g.acc crackIdx n.id pids).length = 3
    · rw [consistencyNode_eq_warn crackIdx pids n g hp h3]
      refine ⟨hg, fun s hs => ?_⟩
      rcases (pushStep_steps_mem _ _ s).mp hs with h | h
      · rcases (pushStep_steps_mem _ _ s).mp h with h1 | h1
        · exact Or.inl h1
        · subst h1
          exact Or.inr ⟨hqsees _ _ _, g.acc, hg, rfl⟩
      · subst h
        exact Or.inr ⟨hqwarn _ _ _, g.acc, hg, rfl⟩
    · by_cases h2 : (sortedFieldsOf g.acc crackIdx n.id pids).length = 2
      · by_cases h12 : 1 ∈ sortedFieldsOf g.acc crackIdx n.id pids ∧
            2 ∈ sortedFieldsOf g.acc crackIdx n.id pids
        · rw [consistencyNode_eq_remap12 crackIdx pids n g hp h12.1 h12.2 h2]
          have hpr : SlotsOne i (remapLoop crackIdx n.id 1 3 pids g.acc) ∧
              KeysCover nodes particles (remapLoop crackIdx n.id 1 3 pids g.acc) :=
            ⟨remapLoop_slotsOne i crackIdx n.id 1 3 hidx pids g.acc hg.1, hkr 1 3⟩
          refine ⟨hpr, fun s hs => ?_⟩
          rcases (pushStep_steps_mem _ _ s).mp hs with h | h
          · rcases (pushStep_steps_mem _ _ s).mp h with h1 | h1
            · exact Or.inl h1
            · subst h1
              exact Or.inr ⟨hqsees _ _ _, g.acc, hg, rfl⟩
          · subst h
            exact Or.inr ⟨hqnorm _ _ _ _, _, hpr, rfl⟩
        · by_cases h13 : 1 ∈ sortedFieldsOf g.acc crackIdx n.id pids ∧
              3 ∈ sortedFieldsOf g.acc crackIdx n.id pids
          · rw [consistencyNode_eq_remap13 crackIdx pids n g hp h12 h13.1 h13.2 h2]
            have hpr : SlotsOne i (remapLoop crackIdx n.id 1 2 pids g.acc) ∧
                KeysCover nodes particles (remapLoop crackIdx n.id 1 2 pids g.acc) :=
              ⟨remapLoop_slotsOne i crackIdx n.id 1 2 hidx pids g.acc hg.1, hkr 1 2⟩
            refine ⟨hpr, fun s hs => ?_⟩
            rcases (pushStep_steps_mem _ _ s).mp hs with h | h
            · rcases (pushStep_steps_mem _ _ s).mp h with h1 | h1
              · exact Or.inl h1
              · subst h1
                exact Or.inr ⟨hqsees _ _ _, g.acc, hg, rfl⟩
            · subst h
              exact Or.inr ⟨hqnorm _ _ _ _, _, hpr, rfl⟩
          · rw [consistencyNode_eq_noremap crackIdx pids n g hp h12 h13 h2]
            refine ⟨hg, fun s hs => ?_⟩
            rcases (pushStep_steps_mem _ _ s).mp hs with h | h
            · exact Or.inl h
            · subst h
              exact Or.inr ⟨hqsees _ _ _, g.acc, hg, rfl⟩
      · rw [consistencyNode_eq_plain crackIdx pids n g hp h3 h2]
        refine ⟨hg, fun s hs => ?_⟩
        rcases (pushStep_steps_mem _ _ s).mp hs with h | h
        · exact Or.inl h
        · subst h
          exact Or.inr ⟨hqsees _ _ _, g.acc, hg, rfl⟩

theorem consistencyNode_advances_self (nodes : List (Node α))
    (particles : List (Particle α)) (i cid : Nat) (n : Node α) :
    Advances (fun acc => SlotsOne i acc ∧ KeysCover nodes particles acc)
      (fun s : Step α => (IsCheckingStep s ∨ IsResultStep s) →
        s.highlightCrackId ≠ some cid)
      (fun g => consistencyNode i (nodeToParticles nodes particles n.id) n g) := by
  intro g hg
  dsimp only
  by_cases hp0 : nodeToParticles nodes particles n.id = []
  · rw [hp0, consistencyNode_eq_nil]
    exact ⟨hg, fun s hs => Or.inl hs⟩
  · have hall : ∀ pid ∈ nodeToParticles nodes particles n.id,
        slotOf g.acc i (n.id, pid) = 1 := by
      intro pid hpid
      unfold nodeToParticles at hpid
      obtain ⟨q, hq, hqid⟩ := List.mem_map.mp hpid
      have hqmem := List.mem_filter.mp hq
      have hkey : (n.id, pid) ∈ keysOf g.acc := by
        rw [← hqid]
        exact hg.2 q hqmem.1 n.id (by simpa using hqmem.2)
      exact slotOf_of_slotsOne hg.1 hkey
    have hsf : sortedFieldsOf g.acc i n.id (nodeToParticles nodes particles n.id) = [1] :=
      sortedFieldsOf_const_one g.acc i n.id _ hp0 hall
    have hp : ¬(nodeToParticles nodes particles n.id).length = 0 := by
      simpa [List.length_eq_zero] using hp0
    have h3 : ¬(sortedFieldsOf g.acc i n.id (nodeToParticles nodes particles n.id)).length = 3 := by
      rw [hsf]
      simp
    have h2 : ¬(sortedFieldsOf g.acc i n.id (nodeToParticles nodes particles n.id)).length = 2 := by
      rw [hsf]
      simp
    rw [consistencyNode_eq_plain i (nodeToParticles nodes particles n.id) n g hp h3 h2]
    refine ⟨hg, fun s hs => ?_⟩
    rcases (pushStep_steps_mem _ _ s).mp hs with h | h
    · exact Or.inl h
    · subst h
      refine Or.inr ⟨?_, g.acc, hg, rfl⟩
      exact q10_of_marker cid _ (not_cr_of_description _
        (fun a b c => ⟨by simp [seesStep], by simp [seesStep]⟩))

theorem crossingPhase_advances_other (nodes : List (Node α)) (particles : List (Particle α))
    (i cid : Nat) (crack : Crack α) (crackIdx : Nat)
    (hidx : crackIdx ≠ i) (hcid : crack.id ≠ cid) :
    Advances (fun acc => SlotsOne i acc ∧ KeysCover nodes particles acc)
      (fun s : Step α => (IsCheckingStep s ∨ IsResultStep s) →
        s.highlightCrackId ≠ some cid)
      (fun g => crossingPhase nodes particles crack crackIdx g) := by
  apply advances_foldl
  intro p _
  apply advances_foldl
  intro nid _
  exact processPair_advances_other nodes particles i cid crack crackIdx p nid hidx hcid

theorem crossingPhase_advances_self (nodes : List (Node α)) (particles : List (Particle α))
    (i cid : Nat) (crack : Crack α) (hsegs : crack.segments = []) :
    Advances (fun acc => SlotsOne i acc ∧ KeysCover nodes particles acc)
      (fun s : Step α => (IsCheckingStep s ∨ IsResultStep s) →
        s.highlightCrackId ≠ some cid)
      (fun g => crossingPhase nodes particles crack i g) := by
  apply advances_foldl
  intro p hp
  apply advances_foldl
  intro nid hnid
  exact processPair_advances_self nodes particles i cid crack p nid hp hnid hsegs

theorem processCrack_advances_c10 (nodes : List (Node α)) (particles : List (Particle α))
    (i cid : Nat) (crack : Crack α) (crackIdx : Nat)
    (hcross : Advances (fun acc => SlotsOne i acc ∧ KeysCover nodes particles acc)
      (fun s : Step α => (IsCheckingStep s ∨ IsResultStep s) →
        s.highlightCrackId ≠ some cid)
      (fun g => crossingPhase nodes particles crack crackIdx g))
    (hcons : ∀ n ∈ nodes, Advances (fun acc => SlotsOne i acc ∧ KeysCover nodes particles acc)
      (fun s : Step α => (IsCheckingStep s ∨ IsResultStep s) →
        s.highlightCrackId ≠ some cid)
      (fun g => consistencyNode crackIdx (nodeToParticles nodes particles n.id) n g)) :
    Advances (fun acc => SlotsOne i acc ∧ KeysCover nodes particles acc)
      (fun s : Step α => (IsCheckingStep s ∨ IsResultStep s) →
        s.highlightCrackId ≠ some cid)
      (fun g => processCrack nodes particles crack crackIdx g) := by
  have hqm : ∀ (snap : List (PairKey × Nat)) (sid : Nat),
      (IsCheckingStep (crackStartStep crack.id snap sid : Step α) ∨
        IsResultStep (crackStartStep crack.id snap sid : Step α)) →
      (crackStartStep crack.id snap sid : Step α).highlightCrackId ≠ some cid := by
    intro snap sid
    exact q10_of_marker cid _ (not_cr_of_description _
      (fun a b c => ⟨by simp [crackStartStep], by simp [crackStartStep]⟩))
  have hqp : ∀ (snap : List (PairKey × Nat)) (sid : Nat),
      (IsCheckingStep (phaseStep crack.id snap sid : Step α) ∨
        IsResultStep (phaseStep crack.id snap sid : Step α)) →
      (phaseStep crack.id snap sid : Step α).highlightCrackId ≠ some cid := by
    intro snap sid
    exact q10_of_marker cid _ (not_cr_of_description _
      (fun a b c => ⟨by simp [phaseStep], by simp [phaseStep]⟩))
  have h1 : Advances (fun acc => SlotsOne i acc ∧ KeysCover nodes particles acc)
      (fun s : Step α => (IsCheckingStep s ∨ IsResultStep s) →
        s.highlightCrackId ≠ some cid)
      (fun g : GenState α => pushStep g (crackStartStep crack.id (computeCombinedField g.acc))) :=
    advances_pushStep _ _ _ (fun g hg => ⟨hqm _ _, rfl⟩)
  have h3 : Advances (fun acc => SlotsOne i acc ∧ KeysCover nodes particles acc)
      (fun s : Step α => (IsCheckingStep s ∨ IsResultStep s) →
        s.highlightCrackId ≠ some cid)
      (fun g : GenState α => pushStep g (phaseStep crack.id (computeCombinedField g.acc))) :=
    advances_pushStep _ _ _ (fun g hg => ⟨hqp _ _, rfl⟩)
  have h4 : Advances (fun acc => SlotsOne i acc ∧ KeysCover nodes particles acc)
      (fun s : Step α => (IsCheckingStep s ∨ IsResultStep s) →
        s.highlightCrackId ≠ some cid)
      (fun g : GenState α => nodes.foldl (fun g n =>
        consistencyNode crackIdx (nodeToParticles nodes particles n.id) n g) g) :=
    advances_foldl _ _ _ _ hcons
  exact advances_comp (fun acc => SlotsOne i acc ∧ KeysCover nodes particles acc)
    (fun s : Step α => (IsCheckingStep s ∨ IsResultStep s) →
      s.highlightCrackId ≠ some cid)
    (fun g : GenState α => pushStep
      (crossingPhase nodes particles crack crackIdx
        (pushStep g (crackStartStep crack.id (computeCombinedField g.acc))))
      (phaseStep crack.id (computeCombinedField
        (crossingPhase nodes particles crack crackIdx
          (pushStep g (crackStartStep crack.id (computeCombinedField g.acc)))).acc)))
    (fun g : GenState α => nodes.foldl (fun g n =>
      consistencyNode crackIdx (nodeToParticles nodes particles n.id) n g) g)
    (advances_comp _ _
      (fun g : GenState α => crossingPhase nodes particles crack crackIdx
        (pushStep g (crackStartStep crack.id (computeCombinedField g.acc))))
      (fun g : GenState α => pushStep g (phaseStep crack.id (computeCombinedField g.acc)))
      (advances_comp _ _
        (fun g : GenState α => pushStep g (crackStartStep crack.id (computeCombinedField g.acc)))
        (fun g : GenState α => crossingPhase nodes particles crack crackIdx g)
        h1 hcross)
      h3)
    h4

theorem initAcc_slotsOne (nodes : List (Node α)) (particles : List (Particle α))
    (cracks : List (Crack α)) (i : Nat) (hi : i < cracks.length) :
    SlotsOne i (initAcc nodes particles cracks) := by
  intro e he
  have h1 := initAcc_slots nodes particles cracks e he
  unfold initAcc at he
  obtain ⟨p, _, he2⟩ := List.mem_flatMap.mp he
  obtain ⟨nid, _, he3⟩ := List.mem_map.mp he2
  subst he3
  simp [List.getD_eq_getElem?_getD, List.getElem?_replicate, hi]

theorem initAcc_keysCover (nodes : List (Node α)) (particles : List (Particle α))
    (cracks : List (Crack α)) :
    KeysCover nodes particles (initAcc nodes particles cracks) := by
  intro p hp nid hnid
  rw [mem_keysOf_iff]
  refine ⟨((nid, p.id), List.replicate cracks.length 1), ?_, rfl⟩
  unfold initAcc
  rw [List.mem_flatMap]
  exact ⟨p, hp, List.mem_map.mpr ⟨nid, hnid, rfl⟩⟩

theorem enum_id_ne (cracks : List (Crack α)) (i : Nat) (c : Crack α)
    (hget : cracks.get? i = some c) (hids : (cracks.map (fun ck => ck.id)).Nodup)
    (j : Nat) (cj : Crack α) (hj : cracks.get? j = some cj) (hne : j ≠ i) :
    cj.id ≠ c.id := by
  intro hcid
  apply hne
  rw [List.get?_eq_getElem?] at hget hj
  have hmi : (cracks.map (fun ck => ck.id))[i]? = some c.id := by
    rw [List.getElem?_map, hget]
    rfl
  have hmj : (cracks.map (fun ck => ck.id))[j]? = some cj.id := by
    rw [List.getElem?_map, hj]
    rfl
  have hjlen : j < (cracks.map (fun ck => ck.id)).length := by
    obtain ⟨h, _⟩ := List.getElem?_eq_some_iff.mp hmj
    exact h
  exact List.getElem?_inj hjlen hids (by rw [hmj, hmi, hcid])

/-- C10: the run succeeds on a crack with fewer than 2 points: no
per-segment crossing step and no result step is emitted for that crack,
every step snapshot encodes an accumulator whose slot for that crack is 1
for every pair, and the final accumulator also holds 1 there. -/
theorem short_crack_spec (nodes : List (Node α)) (particles : List (Particle α))
    (cracks : List (Crack α)) (i : Nat) (c : Crack α)
    (hget : cracks.get? i = some c) (hlen : c.points.length < 2)
    (hids : (cracks.map (fun ck => ck.id)).Nodup) :
    (∀ s ∈ generateSimulationSteps nodes particles cracks,
      (IsCheckingStep s ∨ IsResultStep s) → s.highlightCrackId ≠ some c.id) ∧
    (∀ s ∈ generateSimulationSteps nodes particles cracks,
      ∃ acc, SlotsOne i acc ∧ s.currentFieldState = computeCombinedField acc) ∧
    SlotsOne i (generateAux nodes particles cracks).acc := by
  have hilen : i < cracks.length := by
    rw [List.get?_eq_getElem?] at hget
    obtain ⟨h, _⟩ := List.getElem?_eq_some_iff.mp hget
    exact h
  have hinit : SlotsOne i (initAcc nodes particles cracks) ∧
      KeysCover nodes particles (initAcc nodes particles cracks) :=
    ⟨initAcc_slotsOne nodes particles cracks i hilen,
      initAcc_keysCover nodes particles cracks⟩
  have hmain := generateAux_invariant
    (fun acc => SlotsOne i acc ∧ KeysCover nodes particles acc)
    (fun s : Step α => (IsCheckingStep s ∨ IsResultStep s) →
      s.highlightCrackId ≠ some c.id)
    nodes particles cracks hinit
    (fun snap sid => q10_of_marker c.id _ (not_cr_of_description _
      (fun a b cc => ⟨by simp [initStep], by simp [initStep]⟩)))
    (fun snap sid => q10_of_marker c.id _ (not_cr_of_description _
      (fun a b cc => ⟨by simp [completeStep], by simp [completeStep]⟩)))
    (fun ic hic => by
      have hjget : cracks.get? ic.1 = some ic.2 := by
        rw [List.get?_eq_getElem?]
        exact List.mem_enum_iff_getElem?.mp hic
      by_cases hji : ic.1 = i
      · have hceq : ic.2 = c := by
          rw [hji] at hjget
          rw [hjget] at hget
          exact Option.some.inj hget
        rw [hji]
        apply processCrack_advances_c10
        · apply crossingPhase_advances_self
          rw [hceq]
          exact segments_nil_of_short c hlen
        · intro n _
          exact consistencyNode_advances_self nodes particles i c.id n
      · apply processCrack_advances_c10
        · exact crossingPhase_advances_other nodes particles i c.id ic.2 ic.1 hji
            (enum_id_ne cracks i c hget hids ic.1 ic.2 hjget hji)
        · intro n _
          exact consistencyNode_advances_other nodes particles i c.id ic.1
            (nodeToParticles nodes particles n.id) n hji)
  refine ⟨fun s hs => (hmain.2 s hs).1, fun s hs => ?_, hmain.1.1⟩
  obtain ⟨acc, ⟨h1, _⟩, hsnap⟩ := (hmain.2 s hs).2
  exact ⟨acc, h1, hsnap⟩

/-- C10 witness: a one-point crack alongside a regular crack; the run at
the case1 geometry emits no crossing or result steps for the degenerate
crack and keeps its slot at 1. -/
theorem short_crack_spec_witness :
    ([(⟨1, [⟨0, 0⟩]⟩ : Crack ℤ), ⟨0, [⟨1, 5⟩, ⟨9, 5⟩]⟩].get? 0 = some ⟨1, [⟨0, 0⟩]⟩) ∧
    SlotsOne 0 (generateAux case1Nodes case1Particles
      [⟨1, [⟨0, 0⟩]⟩, ⟨0, [⟨1, 5⟩, ⟨9, 5⟩]⟩]).acc ∧
    ∀ s ∈ generateSimulationSteps case1Nodes case1Particles
      [⟨1, [⟨0, 0⟩]⟩, ⟨0, [⟨1, 5⟩, ⟨9, 5⟩]⟩],
      (IsCheckingStep s ∨ IsResultStep s) → s.highlightCrackId ≠ some 1 := by
  have h := short_crack_spec case1Nodes case1Particles
    [⟨1, [⟨0, 0⟩]⟩, ⟨0, [⟨1, 5⟩, ⟨9, 5⟩]⟩] 0 ⟨1, [⟨0, 0⟩]⟩
    (by decide) (by decide) (by decide)
  exact ⟨by decide, h.2.2, h.1⟩

/-! ## Trace shape: the run always returns a full trace (C5) -/

theorem steps_double_push (g : GenState α) (mk1 mk2 : Nat → Step α) :
    (pushStep (pushStep g mk1) mk2).steps =
      g.steps ++ [mk1 g.counter, mk2 (g.counter + 1)] := by
  simp [pushStep]

theorem steps_push_modified (g : GenState α) (mk1 : Nat → Step α) (acc2 : FieldAcc)
    (mk2 : Nat → Step α) :
    (pushStep { pushStep g mk1 with acc := acc2 } mk2).steps =
      g.steps ++ [mk1 g.counter, mk2 (g.counter + 1)] := by
  simp [pushStep]

theorem extends_foldl {β : Type} (f : GenState α → β → GenState α) (l : List β)
    (h : ∀ b ∈ l, ∀ g : GenState α, ∃ new, (f g b).steps = g.steps ++ new) :
    ∀ g : GenState α, ∃ new, (l.foldl f g).steps = g.steps ++ new := by
  induction l with
  | nil => intro g; exact ⟨[], by simp⟩
  | cons b rest ih =>
    intro g
    obtain ⟨n1, h1⟩ := h b (List.mem_cons_self b rest) g
    obtain ⟨n2, h2⟩ := ih (fun x hx => h x (List.mem_cons_of_mem _ hx)) (f g b)
    refine ⟨n1 ++ n2, ?_⟩
    show (rest.foldl f (f g b)).steps = _
    rw [h2, h1, List.append_assoc]

theorem processPair_extends (nodes : List (Node α)) (crack : Crack α) (crackIdx : Nat)
    (p : Particle α) (nid : Nat) (g : GenState α) :
    ∃ new, (processPair nodes crack crackIdx p nid g).steps = g.steps ++ new := by
  cases hf : nodes.find? (fun node => decide (node.id = nid)) with
  | none =>
    rw [processPair_none nodes crack crackIdx p nid g hf]
    exact ⟨[], by simp⟩
  | some n =>
    obtain ⟨new, hsteps, _⟩ := processPair_steps nodes crack crackIdx p nid g n hf
    exact ⟨new, hsteps⟩

theorem consistencyNode_extends (crackIdx : Nat) (pids : List Nat) (n : Node α)
    (g : GenState α) :
    ∃ new, (consistencyNode crackIdx pids n g).steps = g.steps ++ new := by
  by_cases hp0 : pids.length = 0
  · rw [List.length_eq_zero] at hp0
    subst hp0
    rw [consistencyNode_eq_nil]
    exact ⟨[], by simp⟩
  · have hp : ¬pids.length = 0 := hp0
    by_cases h3 : (sortedFieldsOf g.acc crackIdx n.id pids).length = 3
    · rw [consistencyNode_eq_warn crackIdx pids n g hp h3]
      exact ⟨_, steps_double_push g _ _⟩
    · by_cases h2 : (sortedFieldsOf g.acc crackIdx n.id pids).length = 2
      · by_cases h12 : 1 ∈ sortedFieldsOf g.acc crackIdx n.id pids ∧
            2 ∈ sortedFieldsOf g.acc crackIdx n.id pids
        · rw [consistencyNode_eq_remap12 crackIdx pids n g hp h12.1 h12.2 h2]
          exact ⟨_, steps_push_modified g _ _ _⟩
        · by_cases h13 : 1 ∈ sortedFieldsOf g.acc crackIdx n.id pids ∧
              3 ∈ sortedFieldsOf g.acc crackIdx n.id pids
          · rw [consistencyNode_eq_remap13 crackIdx pids n g hp h12 h13.1 h13.2 h2]
            exact ⟨_, steps_push_modified g _ _ _⟩
          · rw [consistencyNode_eq_noremap crackIdx pids n g hp h12 h13 h2]
            exact ⟨_, rfl⟩
      · rw [consistencyNode_eq_plain crackIdx pids n g hp h3 h2]
        exact ⟨_, rfl⟩

theorem steps_pushStep (g : GenState α) (mk : Nat → Step α) :
    (pushStep g mk).steps = g.steps ++ [mk g.counter] := rfl

theorem exists_append_shuffle {β : Type} (l : List β) (a : β) (n2 : List β) (b : β)
    (n4 : List β) :
    ∃ new, (((l ++ [a]) ++ n2) ++ [b]) ++ n4 = l ++ new :=
  ⟨[a] ++ (n2 ++ ([b] ++ n4)), by simp [List.append_assoc]⟩

theorem processCrack_extends (nodes : List (Node α)) (particles : List (Particle α))
    (crack : Crack α) (crackIdx : Nat) (g : GenState α) :
    ∃ new, (processCrack nodes particles crack crackIdx g).steps = g.steps ++ new := by
  unfold processCrack
  dsimp only
  obtain ⟨n2, h2⟩ := extends_foldl
    (fun g p => (particleToNodes nodes p).foldl
      (fun g nid => processPair nodes crack crackIdx p nid g) g) particles
    (fun p _ => extends_foldl _ _
      (fun nid _ g => processPair_extends nodes crack crackIdx p nid g))
    (pushStep g (crackStartStep crack.id (computeCombinedField g.acc)))
  obtain ⟨n4, h4⟩ := extends_foldl
    (fun g n => consistencyNode crackIdx (nodeToParticles nodes particles n.id) n g) nodes
    (fun n _ g => consistencyNode_extends crackIdx (nodeToParticles nodes particles n.id) n g)
    (pushStep (crossingPhase nodes particles crack crackIdx
        (pushStep g (crackStartStep crack.id (computeCombinedField g.acc))))
      (phaseStep crack.id (computeCombinedField
        (crossingPhase nodes particles crack crackIdx
          (pushStep g (crackStartStep crack.id (computeCombinedField g.acc)))).acc)))
  rw [h4, steps_pushStep]
  rw [show crossingPhase nodes particles crack crackIdx
      (pushStep g (crackStartStep crack.id (computeCombinedField g.acc))) =
    particles.foldl (fun g p => (particleToNodes nodes p).foldl
      (fun g nid => processPair nodes crack crackIdx p nid g) g)
      (pushStep g (crackStartStep crack.id (computeCombinedField g.acc))) from rfl]
  rw [h2, steps_pushStep]
  exact exists_append_shuffle g.steps _ n2 _ n4

theorem generateSimulationSteps_shape (nodes : List (Node α)) (particles : List (Particle α))
    (cracks : List (Crack α)) :
    ∃ (mid : List (Step α)) (snap : List (PairKey × Nat)) (sid : Nat),
      generateSimulationSteps nodes particles cracks =
        initStep (computeCombinedField (initAcc nodes particles cracks)) 0 ::
          (mid ++ [completeStep snap sid]) := by
  unfold generateSimulationSteps generateAux
  dsimp only
  obtain ⟨mid, hmid⟩ := extends_foldl
    (fun g ic => processCrack nodes particles ic.2 ic.1 g) cracks.enum
    (fun ic _ g => processCrack_extends nodes particles ic.2 ic.1 g)
    (pushStep { steps := [], counter := 0, acc := initAcc nodes particles cracks }
      (initStep (computeCombinedField (initAcc nodes particles cracks))))
  refine ⟨mid, computeCombinedField (cracks.enum.foldl
      (fun g ic => processCrack nodes particles ic.2 ic.1 g)
      (pushStep { steps := [], counter := 0, acc := initAcc nodes particles cracks }
        (initStep (computeCombinedField (initAcc nodes particles cracks))))).acc,
    (cracks.enum.foldl (fun g ic => processCrack nodes particles ic.2 ic.1 g)
      (pushStep { steps := [], counter := 0, acc := initAcc nodes particles cracks }
        (initStep (computeCombinedField (initAcc nodes particles cracks))))).counter, ?_⟩
  rw [steps_pushStep, hmid, steps_pushStep]
  simp [List.append_assoc]

/-- C5 counterexample: on an input containing a crack with a single point,
generateSimulationSteps does not fail: it returns a full trace from the
initialization step to the completion step. -/
theorem invalid_crack_cex :
    ((generateSimulationSteps ([] : List (Node ℤ)) [] [⟨0, [⟨0, 0⟩]⟩]).map
      (fun s => s.description)) =
      [StepDesc.initialization, StepDesc.processingCrack 0, StepDesc.consistencyPhase 0,
        StepDesc.complete] ∧
    generateSimulationSteps ([] : List (Node ℤ)) [] [⟨0, [⟨0, 0⟩]⟩] ≠ [] := by
  constructor
  · rfl
  · decide

/-- C5 (amended): a crack with fewer than 2 points is not an error: the
run returns a complete trace (initialization step first, completion step
last), and the degenerate crack contributes no segment tests (no checking
step carries its crack id). -/
theorem invalid_crack_spec (nodes : List (Node α)) (particles : List (Particle α))
    (cracks : List (Crack α)) (i : Nat) (c : Crack α)
    (hget : cracks.get? i = some c) (hlen : c.points.length < 2)
    (hids : (cracks.map (fun ck => ck.id)).Nodup) :
    generateSimulationSteps nodes particles cracks ≠ [] ∧
    (generateSimulationSteps nodes particles cracks).head?.map (fun s => s.description) =
      some StepDesc.initialization ∧
    (generateSimulationSteps nodes particles cracks).getLast?.map (fun s => s.description) =
      some StepDesc.complete ∧
    ∀ s ∈ generateSimulationSteps nodes particles cracks,
      IsCheckingStep s → s.highlightCrackId ≠ some c.id := by
  obtain ⟨mid, snap, sid, hshape⟩ := generateSimulationSteps_shape nodes particles cracks
  refine ⟨by rw [hshape]; simp, by rw [hshape]; rfl, ?_, ?_⟩
  · rw [hshape]
    rw [show initStep (computeCombinedField (initAcc nodes particles cracks)) 0 ::
        (mid ++ [completeStep snap sid]) =
      (initStep (computeCombinedField (initAcc nodes particles cracks)) 0 :: mid)
        ++ [completeStep snap sid] from rfl]
    rw [List.getLast?_concat]
    rfl
  · intro s hs hchk
    exact (short_crack_spec nodes particles cracks i c hget hlen hids).1 s hs (Or.inl hchk)

/-- C5 witness: the no-failure theorem applied to a one-point crack next
to the case1 crack. -/
theorem invalid_crack_spec_witness :
    generateSimulationSteps case1Nodes case1Particles
      [⟨1, [⟨0, 0⟩]⟩, ⟨0, [⟨1, 5⟩, ⟨9, 5⟩]⟩] ≠ [] ∧
    (generateSimulationSteps case1Nodes case1Particles
      [⟨1, [⟨0, 0⟩]⟩, ⟨0, [⟨1, 5⟩, ⟨9, 5⟩]⟩]).head?.map (fun s => s.description) =
      some StepDesc.initialization ∧
    (generateSimulationSteps case1Nodes case1Particles
      [⟨1, [⟨0, 0⟩]⟩, ⟨0, [⟨1, 5⟩, ⟨9, 5⟩]⟩]).getLast?.map (fun s => s.description) =
      some StepDesc.complete := by
  have h := invalid_crack_spec case1Nodes case1Particles
    [⟨1, [⟨0, 0⟩]⟩, ⟨0, [⟨1, 5⟩, ⟨9, 5⟩]⟩] 0 ⟨1, [⟨0, 0⟩]⟩
    (by decide) (by decide) (by decide)
  exact ⟨h.1, h.2.1, h.2.2.1⟩

/-! ## The case1 end-to-end example (C6) -/

set_option maxRecDepth 100000 in
/-- C6 counterexample: in the case1 preset the crossing test for particle
(5,4) against node (2,2) yields 0, not 3 (both points lie below the
crack), and node 0 sees the label set [1,2] during the consistency phase,
not [2,3]. -/
theorem preset_case1_cex :
    (checkCrossing (α := ℤ) ⟨5, 4⟩ ⟨2, 2⟩ ⟨1, 5⟩ ⟨9, 5⟩).result = 0 ∧
    (checkCrossing (α := ℤ) ⟨5, 4⟩ ⟨2, 2⟩ ⟨1, 5⟩ ⟨9, 5⟩).result ≠ 3 ∧
    ((generateSimulationSteps case1Nodes case1Particles case1Cracks).map
      (fun s => s.description)).count (StepDesc.seesFields 0 [2, 3]) = 0 ∧
    ((generateSimulationSteps case1Nodes case1Particles case1Cracks).map
      (fun s => s.description)).count (StepDesc.seesFields 0 [1, 2]) = 1 := by
  refine ⟨by decide, by decide, by decide, by decide⟩

set_option maxRecDepth 100000 in
/-- C6 (amended): in the case1 preset each particle connects to all 4
nodes; the crossing test against the single segment yields 3 for particle
(5,4) only at the nodes above the crack ((2,8) and (8,8)) and 0 at the
nodes below, and 2 for particle (5,6) only at the nodes below the crack
((2,2) and (8,2)) and 0 at the nodes above; after the crossing phase the
consistency check sees [1,2] at nodes 0 and 1 (remapping 1 to 3) and
[1,3] at nodes 2 and 3 (remapping 1 to 2), with no warning; the final
labels are 3 for every (5,4) pair and 2 for every (5,6) pair. -/
theorem preset_case1_spec :
    ((particleToNodes case1Nodes ⟨0, 5, 4⟩).length = 4 ∧
      ∀ n ∈ case1Nodes, n.id ∈ particleToNodes case1Nodes ⟨0, 5, 4⟩) ∧
    ((particleToNodes case1Nodes ⟨1, 5, 6⟩).length = 4 ∧
      ∀ n ∈ case1Nodes, n.id ∈ particleToNodes case1Nodes ⟨1, 5, 6⟩) ∧
    ((checkCrossing (α := ℤ) ⟨5, 4⟩ ⟨2, 2⟩ ⟨1, 5⟩ ⟨9, 5⟩).result = 0 ∧
      (checkCrossing (α := ℤ) ⟨5, 4⟩ ⟨8, 2⟩ ⟨1, 5⟩ ⟨9, 5⟩).result = 0 ∧
      (checkCrossing (α := ℤ) ⟨5, 4⟩ ⟨2, 8⟩ ⟨1, 5⟩ ⟨9, 5⟩).result = 3 ∧
      (checkCrossing (α := ℤ) ⟨5, 4⟩ ⟨8, 8⟩ ⟨1, 5⟩ ⟨9, 5⟩).result = 3) ∧
    ((checkCrossing (α := ℤ) ⟨5, 6⟩ ⟨2, 2⟩ ⟨1, 5⟩ ⟨9, 5⟩).result = 2 ∧
      (checkCrossing (α := ℤ) ⟨5, 6⟩ ⟨8, 2⟩ ⟨1, 5⟩ ⟨9, 5⟩).result = 2 ∧
      (checkCrossing (α := ℤ) ⟨5, 6⟩ ⟨2, 8⟩ ⟨1, 5⟩ ⟨9, 5⟩).result = 0 ∧
      (checkCrossing (α := ℤ) ⟨5, 6⟩ ⟨8, 8⟩ ⟨1, 5⟩ ⟨9, 5⟩).result = 0) ∧
    (((generateSimulationSteps case1Nodes case1Particles case1Cracks).map
        (fun s => s.description)).count (StepDesc.seesFields 0 [1, 2]) = 1 ∧
      ((generateSimulationSteps case1Nodes case1Particles case1Cracks).map
        (fun s => s.description)).count (StepDesc.seesFields 1 [1, 2]) = 1 ∧
      ((generateSimulationSteps case1Nodes case1Particles case1Cracks).map
        (fun s => s.description)).count (StepDesc.seesFields 2 [1, 3]) = 1 ∧
      ((generateSimulationSteps case1Nodes case1Particles case1Cracks).map
        (fun s => s.description)).count (StepDesc.seesFields 3 [1, 3]) = 1) ∧
    (((generateSimulationSteps case1Nodes case1Particles case1Cracks).map
        (fun s => s.description)).count (StepDesc.normalizing 0 1 3) = 1 ∧
      ((generateSimulationSteps case1Nodes case1Particles case1Cracks).map
        (fun s => s.description)).count (StepDesc.normalizing 1 1 3) = 1 ∧
      ((generateSimulationSteps case1Nodes case1Particles case1Cracks).map
        (fun s => s.description)).count (StepDesc.normalizing 2 1 2) = 1 ∧
      ((generateSimulationSteps case1Nodes case1Particles case1Cracks).map
        (fun s => s.description)).count (StepDesc.normalizing 3 1 2) = 1) ∧
    (generateSimulationSteps case1Nodes case1Particles case1Cracks).countP
      (fun s : Step ℤ => s.isWarning) = 0 ∧
    (∀ nid ∈ [0, 1, 2, 3],
      slotOf (generateAux case1Nodes case1Particles case1Cracks).acc 0 (nid, 0) = 3) ∧
    (∀ nid ∈ [0, 1, 2, 3],
      slotOf (generateAux case1Nodes case1Particles case1Cracks).acc 0 (nid, 1) = 2) := by
  refine ⟨by decide, by decide, by decide, by decide, by decide, by decide, by decide,
    by decide, by decide⟩

end MFV
